import Mathlib

/-!
Shallow embedding of the buddy allocator in `src/term3/os/alloc/kernel/buddy.c`.

Addresses are modelled as byte offsets from `bd_base` (the `LEAF_SIZE`-rounded
`base`); the C code only ever uses `p - bd_base`, so this loses nothing.
The three per-class metadata structures are modelled abstractly:

* each bit array (`alloc`, `split`) becomes the natural number whose binary
  digit `i` is the array's logical bit `i` (the C packs 8 bits per `char`;
  each of `bit_isset`, `bit_set`, `bit_clear`, `bit_flip` touches exactly one
  logical bit, which is what the bitmask model records).  Bits the C never
  wrote read as `false` in the model (the C would read whatever memory happens
  to sit there); in particular each bitmap gets its own storage, abstracting
  from the C's byte-level layout of the arrays inside the managed region.
* each intrusive free list (`struct list`, an external collaborator) becomes a
  `List Nat` of block offsets; `lst_push` prepends, `lst_pop` takes the head,
  `lst_remove q` erases the member `q`.

`struct sz_info` is 32 bytes on the 64-bit target (a two-pointer list head
plus the `alloc` and `split` pointers); only this byte count enters the
metadata-layout arithmetic.

The state additionally carries a specification-only ghost field `live`
recording the (offset, size class) of blocks handed out by `bd_malloc` and
not yet returned to `bd_free`; no executable code path reads it.
-/

namespace Buddy

/-- `LEAF_SIZE`: the smallest block size. -/
def LEAF_SIZE : Nat := 16

/-- `BLK_SIZE(k) = (1 << k) * LEAF_SIZE`. -/
def BLK_SIZE (k : Nat) : Nat := 2 ^ k * LEAF_SIZE

/-- `NBLK(k) = 1 << (MAXSIZE - k)`: number of blocks of size class `k`. -/
def NBLK (nsizes k : Nat) : Nat := 2 ^ (nsizes - 1 - k)

/-- `ROUNDUP(n, sz) = (((n-1)/sz)+1)*sz`.  For `n = 0` the C computes this in
`uint64` arithmetic where `0 - 1` wraps and the result truncates back to `0`;
the model returns `0` directly. -/
def ROUNDUP (n szv : Nat) : Nat := if n = 0 then 0 else ((n - 1) / szv + 1) * szv

/-- Fuel-driven body of the C `log2` loop (`while (n > 1) { k++; n >>= 1; }`).
The loop halves `n` each iteration, so `n` itself is always enough fuel. -/
def log2Aux : Nat → Nat → Nat
  | 0, _ => 0
  | fuel + 1, n => if 1 < n then log2Aux fuel (n / 2) + 1 else 0

/-- `log2` of buddy.c (floor of the base-2 logarithm, `log2 0 = 0`). -/
def log2 (n : Nat) : Nat := log2Aux n n

/-- `sizeof(struct sz_info)` on the 64-bit target. -/
def SZINFO_SIZE : Nat := 32

/-- One bit array, abstracted to the natural number with those binary digits. -/
abbrev BitArr := Nat

/-- `bit_isset(array, index)`: C tests `(b & m) == m` for `m = 1 << (i % 8)`
on byte `i / 8`, i.e. logical bit `i` of the array. -/
def bit_isset (a : BitArr) (i : Nat) : Bool := a / 2 ^ i % 2 = 1

/-- `bit_set(array, index)`: C stores `b | m`; on the bitmask this is
`a ||| 2^i`. -/
def bit_set (a : BitArr) (i : Nat) : BitArr := a ||| 2 ^ i

/-- `bit_clear(array, index)`: C stores `b & ~m`; and-with-complement on the
bitmask is `Nat.ldiff`. -/
def bit_clear (a : BitArr) (i : Nat) : BitArr := Nat.ldiff a (2 ^ i)

/-- `bit_flip(array, index)`: the C clears the bit if it is set and sets it
otherwise; on one binary digit that is exactly xor with `2^i`
(`bit_flip_eq_c` below re-derives the C's clear-if-set-else-set form). -/
def bit_flip (a : BitArr) (i : Nat) : BitArr := a ^^^ 2 ^ i

/-- The allocator state: `nsizes` together with, for every size class, the
allocation bit array, the split bit array and the free list, plus the ghost
`live` list (see the header comment). -/
structure BDState where
  nsizes : Nat
  alloc : Nat → BitArr
  split : Nat → BitArr
  free : Nat → List Nat
  live : List (Nat × Nat)

/-- Replace class `k`'s free list. -/
def setFreeList (st : BDState) (k : Nat) (l : List Nat) : BDState :=
  { st with free := fun j => if j = k then l else st.free j }

/-- `lst_push(&bd_sizes[k].free, a)`. -/
def pushFree (st : BDState) (k : Nat) (a : Nat) : BDState :=
  setFreeList st k (a :: st.free k)

/-- `lst_remove(q)` where `q` sits in class `k`'s free list. -/
def removeFree (st : BDState) (k : Nat) (a : Nat) : BDState :=
  setFreeList st k ((st.free k).erase a)

/-- `bit_set(bd_sizes[k].alloc, i)`. -/
def setAlloc (st : BDState) (k i : Nat) : BDState :=
  { st with alloc := fun j => if j = k then bit_set (st.alloc k) i else st.alloc j }

/-- `bit_flip(bd_sizes[k].alloc, i)`. -/
def flipAlloc (st : BDState) (k i : Nat) : BDState :=
  { st with alloc := fun j => if j = k then bit_flip (st.alloc k) i else st.alloc j }

/-- `bit_set(bd_sizes[k].split, i)`. -/
def setSplit (st : BDState) (k i : Nat) : BDState :=
  { st with split := fun j => if j = k then bit_set (st.split k) i else st.split j }

/-- `bit_clear(bd_sizes[k].split, i)`. -/
def clearSplit (st : BDState) (k i : Nat) : BDState :=
  { st with split := fun j => if j = k then bit_clear (st.split k) i else st.split j }

/-- `blk_index(k, p)`: the block index of offset `p` at size class `k`. -/
def blk_index (k p : Nat) : Nat := p / BLK_SIZE k

/-- `addr(k, bi)`: the offset of block `bi` at size class `k`. -/
def addr (k bi : Nat) : Nat := bi * BLK_SIZE k

/-- `blk_index_next(k, p)`: first block at size `k` that does not contain `p`. -/
def blk_index_next (k p : Nat) : Nat :=
  p / BLK_SIZE k + (if p % BLK_SIZE k ≠ 0 then 1 else 0)

/-- Fuel-driven body of `firstk`'s loop (`while (size < n) { k++; size *= 2; }`).
`size` starts at `LEAF_SIZE = 16` and doubles, so `n` rounds of fuel always
suffice (`16 * 2 ^ n ≥ n` for every `n`). -/
def firstkAux (n : Nat) : Nat → Nat → Nat → Nat
  | 0, k, _ => k
  | fuel + 1, k, szv => if szv < n then firstkAux n fuel (k + 1) (szv * 2) else k

/-- `firstk(n)`: the first `k` such that `BLK_SIZE(k) >= n`. -/
def firstk (n : Nat) : Nat := firstkAux n n 0 LEAF_SIZE

/-- The scan in `bd_malloc`: the first class `k` in `[k0, nsizes)` whose free
list is non-empty (fuel = `nsizes - k0`). -/
def findkAux (st : BDState) : Nat → Nat → Option Nat
  | 0, _ => none
  | fuel + 1, k => if st.free k ≠ [] then some k else findkAux st fuel (k + 1)

/-- First class at or above `k0` with a non-empty free list, if any. -/
def findk (st : BDState) (k0 : Nat) : Option Nat :=
  findkAux st (st.nsizes - k0) k0

/-- The descending split loop of `bd_malloc`
(`for (; k > fk; k--) { q = p + BLK_SIZE(k-1); ... }`), fuel = `k - fk`. -/
def bd_splitAux (p : Nat) : Nat → Nat → BDState → BDState
  | 0, _, st => st
  | c + 1, k, st =>
    let q := p + BLK_SIZE (k - 1)
    let st1 := setSplit st k (blk_index k p)
    let st2 := flipAlloc st1 (k - 1) (blk_index (k - 1) p / 2)
    let st3 := pushFree st2 (k - 1) q
    bd_splitAux p c (k - 1) st3

/-- `bd_malloc(nbytes)`: returns the granted offset (or `none` for
out-of-memory) together with the next state.  On success the ghost `live`
list additionally records the granted block at class `firstk nbytes`. -/
def bd_malloc (st : BDState) (nbytes : Nat) : Option Nat × BDState :=
  let fk := firstk nbytes
  match findk st fk with
  | none => (none, st)
  | some k =>
    match st.free k with
    | [] => (none, st)
    | p :: rest =>
      let st1 := setFreeList st k rest
      let st2 := flipAlloc st1 k (blk_index k p / 2)
      let st3 := bd_splitAux p (k - fk) k st2
      (some p, { st3 with live := (p, fk) :: st3.live })

/-- The scan of `size(p)` (`for (k = 0; k < nsizes; k++)`), fuel = `nsizes`.
At `k = nsizes - 1` the C reads `bd_sizes[nsizes].split`, one element past the
layout; the model's total `split` map reads an all-zero bit array there for
every state produced by `bd_init` and the two engines. -/
def sizeAux (st : BDState) (p : Nat) : Nat → Nat → Nat
  | 0, _ => 0
  | fuel + 1, k =>
    if bit_isset (st.split (k + 1)) (blk_index (k + 1) p) then k
    else sizeAux st p fuel (k + 1)

/-- `size(p)`: recover the size class of the block at offset `p`. -/
def size (st : BDState) (p : Nat) : Nat := sizeAux st p st.nsizes 0

/-- The merge loop of `bd_free` (`for (k = size(p); k < MAXSIZE; k++)`),
fuel = `MAXSIZE - k`.  Returns the final `k`, the final `p` and the state. -/
def bd_freeLoop (p k : Nat) : Nat → BDState → Nat × Nat × BDState
  | 0, st => (k, p, st)
  | c + 1, st =>
    let bi := blk_index k p
    let buddy := if bi % 2 = 0 then bi + 1 else bi - 1
    let st1 := setAlloc st k (bi / 2)
    if bit_isset (st1.alloc k) (bi / 2) then (k, p, st1)
    else
      let q := addr k buddy
      let st2 := removeFree st1 k q
      let p' := if buddy % 2 = 0 then q else p
      let st3 := clearSplit st2 (k + 1) (blk_index (k + 1) p')
      bd_freeLoop p' (k + 1) c st3

/-- `bd_free(p)`.  The ghost `live` entry for `p` is discharged. -/
def bd_free (st : BDState) (p : Nat) : BDState :=
  let k0 := size st p
  let r := bd_freeLoop p k0 (st.nsizes - 1 - k0) st
  let st1 := pushFree r.2.2 r.1 r.2.1
  { st1 with live := st1.live.eraseP (fun x => x.1 == p) }

/-- The inner marking loop of `bd_mark` (`for (; bi < bj; bi++)`), iterating
`count = bj - bi` times from `bi`. -/
def markRange (k : Nat) : Nat → Nat → BDState → BDState
  | _, 0, st => st
  | bi, c + 1, st =>
    let st1 := if 0 < k then setSplit st k bi else st
    let st2 := flipAlloc st1 k (bi / 2)
    markRange k (bi + 1) c st2

/-- One iteration (size class `k`) of `bd_mark`'s outer loop, threading the
running `free_ret` counter. -/
def markStep (a b : Nat) (il : Bool) (acc : Nat × BDState) (k : Nat) : Nat × BDState :=
  let fr := acc.1
  let st := acc.2
  let bi := blk_index k a
  let bj := blk_index_next k b
  let frst :=
    if k < st.nsizes - 2 then
      if il = true ∧ bj % 2 = 1 then (fr + BLK_SIZE k, pushFree st k (addr k bj))
      else if il = false ∧ bi % 2 = 1 then (fr + BLK_SIZE k, pushFree st k (addr k (bi - 1)))
      else (fr, st)
    else (fr, st)
  let st1 := frst.2
  let st2 := if bi % 2 ≠ 0 then setAlloc st1 k (bi / 2) else st1
  let st3 := if bj % 2 ≠ 0 then setAlloc st2 k (bj / 2) else st2
  (frst.1, markRange k bi (bj - bi) st3)

/-- The whole of `bd_mark` after its alignment check. -/
def markAll (st : BDState) (a b : Nat) (il : Bool) : Nat × BDState :=
  (List.range st.nsizes).foldl (markStep a b il) (0, st)

/-- `bd_mark(start, stop, is_left)`: `none` models the `panic("bd_mark")` on a
misaligned range, otherwise the returned bytes freed (`free_ret`) and the new
state. -/
def bd_mark (st : BDState) (a b : Nat) (il : Bool) : Option (Nat × BDState) :=
  if a % LEAF_SIZE = 0 ∧ b % LEAF_SIZE = 0 then some (markAll st a b il) else none

/-- Bytes of the `alloc` array for class `k`
(`sizeof(char) * ROUNDUP(NBLK(k), 8) / 16`, one bit per pair). -/
def allocArrBytes (ns k : Nat) : Nat := ROUNDUP (NBLK ns k) 8 / 16

/-- Bytes of the `split` array for class `k`
(`sizeof(char) * ROUNDUP(NBLK(k), 8) / 8`). -/
def splitArrBytes (ns k : Nat) : Nat := ROUNDUP (NBLK ns k) 8 / 8

/-- The metadata cursor `p - bd_base` after `bd_init` has laid out the
`bd_sizes` array, the `alloc` arrays and the `split` arrays (classes `1..`). -/
def metaCursor (ns : Nat) : Nat :=
  let c1 := SZINFO_SIZE * ns
  let c2 := (List.range ns).foldl (fun c k => c + allocArrBytes ns k) c1
  (List.range ns).foldl (fun c k => if 1 ≤ k then c + splitArrBytes ns k else c) c2

/-- `nsizes` as computed by `bd_init` from `sz = end - bd_base`. -/
def nsizesFor (sz : Nat) : Nat :=
  let n0 := log2 (sz / LEAF_SIZE) + 1
  if BLK_SIZE (n0 - 1) < sz then n0 + 1 else n0

/-- The condition under which `bd_mark(a, b, il)` pushes a boundary block at
class `k` (besides `k < nsizes - 2`). -/
def markPushCond (a b : Nat) (il : Bool) (k : Nat) : Prop :=
  (il = true ∧ blk_index_next k b % 2 = 1) ∨ (il = false ∧ blk_index k a % 2 = 1)

instance (a b : Nat) (il : Bool) (k : Nat) : Decidable (markPushCond a b il k) := by
  unfold markPushCond
  infer_instance

/-- The offset `bd_mark(a, b, il)` pushes at class `k` when it pushes one. -/
def markPushAddr (a b : Nat) (il : Bool) (k : Nat) : Nat :=
  if il = true then addr k (blk_index_next k b) else addr k (blk_index k a - 1)

/-- `nsizes` chosen by `bd_init(b, e)` (C lines 277-287: round `base` up to
`LEAF_SIZE`, take `log2((end - p) / LEAF_SIZE) + 1`, and one more class if
the range is not already covered). -/
def initNs (b e : Nat) : Nat := nsizesFor (e - ROUNDUP b LEAF_SIZE)

/-- `HEAP_SIZE` chosen by `bd_init(b, e)`. -/
def initHeap (b e : Nat) : Nat := BLK_SIZE (initNs b e - 1)

/-- The metadata boundary (`m_left.meta`, the laid-out cursor `p` rounded up
to `LEAF_SIZE`) of `bd_init(b, e)`, as an offset from `bd_base`. -/
def initM (b e : Nat) : Nat := ROUNDUP (metaCursor (initNs b e)) LEAF_SIZE

/-- The unavailable-tail size (`m_right.meta` in `bd_mark_unavailable`:
`BLK_SIZE(MAXSIZE) - (end - bd_base)`, rounded up to `LEAF_SIZE` when
positive). -/
def initU (b e : Nat) : Nat :=
  if 0 < initHeap b e - (e - ROUNDUP b LEAF_SIZE) then
    ROUNDUP (initHeap b e - (e - ROUNDUP b LEAF_SIZE)) LEAF_SIZE
  else initHeap b e - (e - ROUNDUP b LEAF_SIZE)

/-- The start of the unavailable tail (`bd_end`) of `bd_init(b, e)`. -/
def initR (b e : Nat) : Nat := initHeap b e - initU b e

/-- The two `MARK_META` records of `bd_init`, flattened: reserved metadata
bytes, reserved unavailable-tail bytes, and the bytes freed by each of the
two `bd_mark` calls. -/
structure InitMeta where
  metaBytes : Nat
  unavailBytes : Nat
  leftFree : Nat
  rightFree : Nat
  deriving Repr, DecidableEq

/-- `bd_init(base, end)`: `none` models `panic` (misaligned mark range or the
`bd_init: free mem` accounting failure).  The comparison in the accounting
check is done in `Int`, as the C does it in signed `int` arithmetic. -/
def bd_init (base e : Nat) : Option (BDState × InitMeta) :=
  let st0 : BDState := ⟨initNs base e, fun _ => 0, fun _ => 0, fun _ => [], []⟩
  match bd_mark st0 0 (initM base e) true with
  | none => none
  | some (lf, st1) =>
    match bd_mark st1 (initR base e) (initHeap base e) false with
    | none => none
    | some (rf, st2) =>
      if (lf : Int) + rf = (initHeap base e : Int) - initM base e - initU base e then
        some (st2, ⟨initM base e, initU base e, lf, rf⟩)
      else none

/-- Total bytes sitting on the free lists of all size classes. -/
def freeListBytes (st : BDState) : Nat :=
  (List.range st.nsizes).foldl (fun s k => s + (st.free k).length * BLK_SIZE k) 0

/-- The byte extents `[x.1, x.1 + BLK_SIZE x.2)` of two classed blocks do not
intersect. -/
def BlkDisj (x y : Nat × Nat) : Prop :=
  x.1 + BLK_SIZE x.2 ≤ y.1 ∨ y.1 + BLK_SIZE y.2 ≤ x.1

/-- All blocks on free lists, tagged with their class. -/
def freeBlocks (st : BDState) : List (Nat × Nat) :=
  (List.range st.nsizes).flatMap fun k => (st.free k).map fun a => (a, k)

/-- Every block the allocator considers carved out: free-list blocks plus the
ghost live blocks. -/
def blocks (st : BDState) : List (Nat × Nat) := freeBlocks st ++ st.live

/-- `freeBlocks` with class `k`'s contribution removed. -/
def freeBlocksExcept (st : BDState) (k : Nat) : List (Nat × Nat) :=
  (List.range st.nsizes).flatMap fun j =>
    if j = k then [] else (st.free j).map fun a => (a, j)

/-- The allocator invariant, relative to the usable region `[Mv, Rv)`:
all carved blocks are pairwise disjoint; each is aligned to its own size,
lies inside the usable region and has a valid class; each has its parent's
split bit set; and no split bit is set strictly inside any carved block. -/
def Inv (Mv Rv : Nat) (st : BDState) : Prop :=
  List.Pairwise BlkDisj (blocks st) ∧
  (∀ x ∈ blocks st,
    BLK_SIZE x.2 ∣ x.1 ∧ Mv ≤ x.1 ∧ x.1 + BLK_SIZE x.2 ≤ Rv ∧ x.2 < st.nsizes) ∧
  (∀ x ∈ blocks st, bit_isset (st.split (x.2 + 1)) (blk_index (x.2 + 1) x.1) = true) ∧
  (∀ x ∈ blocks st, ∀ j i, 1 ≤ j → j ≤ x.2 →
    x.1 ≤ i * BLK_SIZE j → (i + 1) * BLK_SIZE j ≤ x.1 + BLK_SIZE x.2 →
    bit_isset (st.split j) i = false)

/-- One allocator call: any `bd_malloc`, or a `bd_free` of a currently live
offset (the documented precondition of `bd_free`). -/
inductive Step : BDState → BDState → Prop
  | malloc (n : Nat) (st : BDState) : Step st (bd_malloc st n).2
  | free (p : Nat) (st : BDState) (h : ∃ c, (p, c) ∈ st.live) : Step st (bd_free st p)

/-- States reachable from a completed `bd_init(b, e)` by allocator calls that
respect `bd_free`'s precondition. -/
def Reachable (b e : Nat) (st : BDState) : Prop :=
  ∃ st0 m, bd_init b e = some (st0, m) ∧ Relation.ReflTransGen Step st0 st

/-- The size-class recovery rule in the spec's words (§4.4 step 1): the first
`k` below `N-1` whose parent split bit is set, and `N-1` when there is none.
Used only to compare against the code's `size`. -/
def sizeSpec (st : BDState) (p : Nat) : Nat :=
  (((List.range (st.nsizes - 1)).find?
      fun k => bit_isset (st.split (k + 1)) (blk_index (k + 1) p)).getD (st.nsizes - 1))

/-- The blocks pushed by the split loop `bd_splitAux p c k`: the upper-half
buddies at classes `k-1, k-2, ..., k-c`. -/
def splitPieces (p : Nat) : Nat → Nat → List (Nat × Nat)
  | _, 0 => []
  | k, c + 1 => (p + BLK_SIZE (k - 1), k - 1) :: splitPieces p (k - 1) c

/-- The rounded-up frontier `ceil(m / BLK_SIZE k) * BLK_SIZE k` used to
describe the blocks freed by a left (metadata) reservation. -/
def eFr (m k : Nat) : Nat := blk_index_next k m * BLK_SIZE k

/-- The rounded-down frontier `(r / BLK_SIZE k) * BLK_SIZE k` used to
describe the blocks freed by a right (unavailable-tail) reservation. -/
def fFr (r k : Nat) : Nat := r / BLK_SIZE k * BLK_SIZE k

/-- Bytes the left (metadata) marking frees at classes below `t`. -/
def leftSum (m t : Nat) : Nat :=
  ((List.range t).map fun j =>
    if blk_index_next j m % 2 = 1 then BLK_SIZE j else 0).sum

/-- Bytes the right (unavailable-tail) marking frees at classes below `t`. -/
def rightSum (r t : Nat) : Nat :=
  ((List.range t).map fun j =>
    if blk_index j r % 2 = 1 then BLK_SIZE j else 0).sum

/-- The all-zero, no-free-list state, used as the `Option.getD` default when
reading back a concrete `bd_init` result. -/
def emptyState : BDState := ⟨0, fun _ => 0, fun _ => 0, fun _ => [], []⟩

/-- A zero `InitMeta` record, the other `Option.getD` default. -/
def emptyMeta : InitMeta := ⟨0, 0, 0, 0⟩

/-- The allocator state after `bd_init(0, 600)`: a 600-byte region, so
`nsizes = 7`, `HEAP_SIZE = 1024`, metadata boundary 256 and unavailable tail
from 592; the free lists are `[576]` at class 0, `[512]` at class 2 and
`[256]` at class 4. -/
def st600 : BDState := ((bd_init 0 600).getD (emptyState, emptyMeta)).1

/-- The `InitMeta` record of `bd_init(0, 600)`:
`⟨256, 432, 256, 80⟩`. -/
def meta600 : InitMeta := ((bd_init 0 600).getD (emptyState, emptyMeta)).2

/-! ### Block-size arithmetic -/

theorem BLK_pos (k : Nat) : 0 < BLK_SIZE k := by
  unfold BLK_SIZE LEAF_SIZE; positivity

theorem BLK_succ (k : Nat) : BLK_SIZE (k + 1) = 2 * BLK_SIZE k := by
  unfold BLK_SIZE; ring

theorem BLK_zero : BLK_SIZE 0 = LEAF_SIZE := by
  unfold BLK_SIZE; simp

theorem BLK_mono {j k : Nat} (h : j ≤ k) : BLK_SIZE j ≤ BLK_SIZE k :=
  Nat.mul_le_mul_right _ (Nat.pow_le_pow_right (by norm_num) h)

theorem BLK_dvd {j k : Nat} (h : j ≤ k) : BLK_SIZE j ∣ BLK_SIZE k :=
  mul_dvd_mul (pow_dvd_pow 2 h) dvd_rfl

theorem BLK_strict_mono {j k : Nat} (h : j < k) : BLK_SIZE j < BLK_SIZE k := by
  have h2 : 2 * BLK_SIZE j ≤ BLK_SIZE k := by
    rw [← BLK_succ]; exact BLK_mono h
  have := BLK_pos j
  omega

/-! ### Bit-array lemmas -/

theorem bit_isset_testBit (a i : Nat) : bit_isset a i = Nat.testBit a i := by
  rw [Nat.testBit_to_div_mod]; rfl

theorem bit_isset_set (a i j : Nat) :
    bit_isset (bit_set a i) j = if j = i then true else bit_isset a j := by
  simp only [bit_isset_testBit, bit_set, Nat.testBit_lor]
  by_cases h : j = i
  · subst h; simp [Nat.testBit_two_pow_self]
  · simp [h, Nat.testBit_two_pow_of_ne (Ne.symm h)]

theorem bit_isset_set_self (a i : Nat) : bit_isset (bit_set a i) i = true := by
  simp [bit_isset_set]

theorem bit_isset_flip (a i j : Nat) :
    bit_isset (bit_flip a i) j = if j = i then !bit_isset a j else bit_isset a j := by
  simp only [bit_isset_testBit, bit_flip, Nat.testBit_xor]
  by_cases h : j = i
  · subst h; simp [Nat.testBit_two_pow_self, Bool.xor_comm]
  · simp [h, Nat.testBit_two_pow_of_ne (Ne.symm h)]

theorem bit_isset_clear (a i j : Nat) :
    bit_isset (bit_clear a i) j = if j = i then false else bit_isset a j := by
  simp only [bit_isset_testBit, bit_clear, Nat.testBit_ldiff]
  by_cases h : j = i
  · subst h; simp [Nat.testBit_two_pow_self]
  · simp [h, Nat.testBit_two_pow_of_ne (Ne.symm h)]

/-- The xor form of `bit_flip` coincides with the C's
clear-if-set-else-set composition of the other three operations. -/
theorem bit_flip_eq_c (a i : Nat) :
    bit_flip a i = if bit_isset a i then bit_clear a i else bit_set a i := by
  by_cases h : bit_isset a i = true
  · rw [if_pos h]
    apply Nat.eq_of_testBit_eq
    intro j
    rw [← bit_isset_testBit, ← bit_isset_testBit, bit_isset_flip, bit_isset_clear]
    by_cases hj : j = i <;> simp [hj, h]
  · rw [if_neg h]
    apply Nat.eq_of_testBit_eq
    intro j
    rw [← bit_isset_testBit, ← bit_isset_testBit, bit_isset_flip, bit_isset_set]
    have h' : bit_isset a i = false := by revert h; cases bit_isset a i <;> simp
    by_cases hj : j = i <;> simp [hj, h']

/-! ### State-update projections -/

@[simp] theorem setFreeList_nsizes (st : BDState) (k : Nat) (l : List Nat) :
    (setFreeList st k l).nsizes = st.nsizes := rfl

@[simp] theorem setFreeList_live (st : BDState) (k : Nat) (l : List Nat) :
    (setFreeList st k l).live = st.live := rfl

@[simp] theorem setFreeList_alloc (st : BDState) (k : Nat) (l : List Nat) :
    (setFreeList st k l).alloc = st.alloc := rfl

@[simp] theorem setFreeList_split (st : BDState) (k : Nat) (l : List Nat) :
    (setFreeList st k l).split = st.split := rfl

theorem setFreeList_free (st : BDState) (k : Nat) (l : List Nat) (j : Nat) :
    (setFreeList st k l).free j = if j = k then l else st.free j := rfl

@[simp] theorem pushFree_nsizes (st : BDState) (k a : Nat) :
    (pushFree st k a).nsizes = st.nsizes := rfl

@[simp] theorem pushFree_live (st : BDState) (k a : Nat) :
    (pushFree st k a).live = st.live := rfl

@[simp] theorem pushFree_alloc (st : BDState) (k a : Nat) :
    (pushFree st k a).alloc = st.alloc := rfl

@[simp] theorem pushFree_split (st : BDState) (k a : Nat) :
    (pushFree st k a).split = st.split := rfl

theorem pushFree_free (st : BDState) (k a j : Nat) :
    (pushFree st k a).free j = if j = k then a :: st.free k else st.free j := rfl

@[simp] theorem setAlloc_nsizes (st : BDState) (k i : Nat) :
    (setAlloc st k i).nsizes = st.nsizes := rfl

@[simp] theorem setAlloc_live (st : BDState) (k i : Nat) :
    (setAlloc st k i).live = st.live := rfl

@[simp] theorem setAlloc_free (st : BDState) (k i : Nat) :
    (setAlloc st k i).free = st.free := rfl

@[simp] theorem setAlloc_split (st : BDState) (k i : Nat) :
    (setAlloc st k i).split = st.split := rfl

theorem setAlloc_alloc (st : BDState) (k i j : Nat) :
    (setAlloc st k i).alloc j = if j = k then bit_set (st.alloc k) i else st.alloc j := rfl

@[simp] theorem flipAlloc_nsizes (st : BDState) (k i : Nat) :
    (flipAlloc st k i).nsizes = st.nsizes := rfl

@[simp] theorem flipAlloc_live (st : BDState) (k i : Nat) :
    (flipAlloc st k i).live = st.live := rfl

@[simp] theorem flipAlloc_free (st : BDState) (k i : Nat) :
    (flipAlloc st k i).free = st.free := rfl

@[simp] theorem flipAlloc_split (st : BDState) (k i : Nat) :
    (flipAlloc st k i).split = st.split := rfl

@[simp] theorem setSplit_nsizes (st : BDState) (k i : Nat) :
    (setSplit st k i).nsizes = st.nsizes := rfl

@[simp] theorem setSplit_live (st : BDState) (k i : Nat) :
    (setSplit st k i).live = st.live := rfl

@[simp] theorem setSplit_free (st : BDState) (k i : Nat) :
    (setSplit st k i).free = st.free := rfl

@[simp] theorem setSplit_alloc (st : BDState) (k i : Nat) :
    (setSplit st k i).alloc = st.alloc := rfl

theorem setSplit_split (st : BDState) (k i j : Nat) :
    (setSplit st k i).split j = if j = k then bit_set (st.split k) i else st.split j := rfl

/-- Pointwise reading of a `setSplit` result. -/
theorem bit_isset_setSplit (st : BDState) (k i j i' : Nat) :
    bit_isset ((setSplit st k i).split j) i' = true ↔
      ((j = k ∧ i' = i) ∨ bit_isset (st.split j) i' = true) := by
  rw [setSplit_split]
  by_cases hj : j = k
  · subst hj; rw [if_pos rfl, bit_isset_set]
    by_cases hi : i' = i <;> simp [hi]
  · simp [hj]

/-! ### `firstk` -/

theorem firstkAux_spec (n : Nat) : ∀ (fuel k : Nat),
    n ≤ BLK_SIZE k * 2 ^ fuel → (∀ j, j < k → BLK_SIZE j < n) →
    n ≤ BLK_SIZE (firstkAux n fuel k (BLK_SIZE k)) ∧
      ∀ j, j < firstkAux n fuel k (BLK_SIZE k) → BLK_SIZE j < n := by
  intro fuel
  induction fuel with
  | zero =>
    intro k h hb
    rw [firstkAux]
    exact ⟨by simpa using h, hb⟩
  | succ f ih =>
    intro k h hb
    rw [firstkAux]
    by_cases hlt : BLK_SIZE k < n
    · rw [if_pos hlt]
      have h2 : BLK_SIZE k * 2 = BLK_SIZE (k + 1) := by rw [BLK_succ]; ring
      rw [h2]
      refine ih (k + 1) ?_ ?_
      · calc n ≤ BLK_SIZE k * 2 ^ (f + 1) := h
          _ = BLK_SIZE (k + 1) * 2 ^ f := by rw [← h2]; ring
      · intro j hj
        rcases Nat.lt_succ_iff_lt_or_eq.mp hj with hj' | hj'
        · exact hb j hj'
        · subst hj'; exact hlt
    · rw [if_neg hlt]
      exact ⟨Nat.le_of_not_lt hlt, hb⟩

theorem firstk_spec (n : Nat) :
    n ≤ BLK_SIZE (firstk n) ∧ ∀ j, j < firstk n → BLK_SIZE j < n := by
  have h0 : BLK_SIZE 0 = LEAF_SIZE := BLK_zero
  have hfuel : n ≤ BLK_SIZE 0 * 2 ^ n := by
    have h1 : n < 2 ^ n := Nat.lt_two_pow n
    have h2 : 2 ^ n ≤ BLK_SIZE 0 * 2 ^ n := by
      have := BLK_pos 0
      calc 2 ^ n = 1 * 2 ^ n := (one_mul _).symm
        _ ≤ BLK_SIZE 0 * 2 ^ n := Nat.mul_le_mul_right _ this
    omega
  have := firstkAux_spec n n 0 hfuel (by intro j hj; omega)
  rw [h0] at this
  exact this

theorem firstk_le_of_le {n : Nat} {k : Nat} (h : n ≤ BLK_SIZE k) : firstk n ≤ k := by
  by_contra hk
  exact absurd h (Nat.not_le.mpr ((firstk_spec n).2 k (Nat.not_le.mp hk)))

/-! ### `findk` -/

theorem findkAux_none_iff (st : BDState) : ∀ (fuel k : Nat),
    findkAux st fuel k = none ↔ ∀ j, k ≤ j → j < k + fuel → st.free j = [] := by
  intro fuel
  induction fuel with
  | zero => intro k; simp [findkAux]; intro j h1 h2; omega
  | succ f ih =>
    intro k
    rw [findkAux]
    by_cases h : st.free k ≠ []
    · simp only [if_pos h]
      constructor
      · intro hc; exact absurd hc (by simp)
      · intro hall
        exact absurd (hall k le_rfl (by omega)) h
    · simp only [if_neg h]
      rw [ih (k + 1)]
      push_neg at h
      constructor
      · intro hall j h1 h2
        rcases Nat.eq_or_lt_of_le h1 with h1' | h1'
        · subst h1'; exact h
        · exact hall j h1' (by omega)
      · intro hall j h1 h2
        exact hall j (by omega) (by omega)

theorem findkAux_some (st : BDState) : ∀ (fuel k k' : Nat),
    findkAux st fuel k = some k' → k ≤ k' ∧ k' < k + fuel ∧ st.free k' ≠ [] := by
  intro fuel
  induction fuel with
  | zero => intro k k' h; simp [findkAux] at h
  | succ f ih =>
    intro k k' h
    rw [findkAux] at h
    by_cases hk : st.free k ≠ []
    · rw [if_pos hk] at h
      cases h
      exact ⟨le_rfl, by omega, hk⟩
    · rw [if_neg hk] at h
      have := ih (k + 1) k' h
      exact ⟨by omega, by omega, this.2.2⟩

theorem findk_none_iff (st : BDState) (k0 : Nat) :
    findk st k0 = none ↔ ∀ j, k0 ≤ j → j < st.nsizes → st.free j = [] := by
  rw [findk, findkAux_none_iff]
  constructor
  · intro h j h1 h2; exact h j h1 (by omega)
  · intro h j h1 h2; exact h j h1 (by omega)

theorem findk_some (st : BDState) (k0 k : Nat) (h : findk st k0 = some k) :
    k0 ≤ k ∧ k < st.nsizes ∧ st.free k ≠ [] := by
  have := findkAux_some st _ _ _ h
  refine ⟨this.1, ?_, this.2.2⟩
  rcases this with ⟨h1, h2, _⟩
  by_cases hk0 : k0 ≤ st.nsizes
  · omega
  · exfalso
    rw [findk] at h
    have : st.nsizes - k0 = 0 := by omega
    rw [this] at h
    simp [findkAux] at h

/-! ### `bd_malloc` case analysis -/

theorem bd_malloc_none_iff (st : BDState) (n : Nat) :
    (bd_malloc st n).1 = none ↔ findk st (firstk n) = none := by
  simp only [bd_malloc]
  cases h : findk st (firstk n) with
  | none => simp
  | some k =>
    have hne := (findk_some st _ _ h).2.2
    cases hl : st.free k with
    | nil => exact absurd hl hne
    | cons p rest => simp [h, hl]

theorem bd_malloc_none_state (st : BDState) (n : Nat)
    (h : (bd_malloc st n).1 = none) : (bd_malloc st n).2 = st := by
  simp only [bd_malloc] at h ⊢
  cases hf : findk st (firstk n) with
  | none => simp [hf]
  | some k =>
    cases hl : st.free k with
    | nil => simp [hf, hl]
    | cons p rest => rw [hf] at h; simp [hl] at h

theorem bd_malloc_some_ex {st : BDState} {n p : Nat} {st' : BDState}
    (h : bd_malloc st n = (some p, st')) :
    ∃ k rest, findk st (firstk n) = some k ∧ st.free k = p :: rest ∧
      st' =
        (let st3 := bd_splitAux p (k - firstk n) k
            (flipAlloc (setFreeList st k rest) k (blk_index k p / 2))
         { st3 with live := (p, firstk n) :: st3.live }) := by
  simp only [bd_malloc] at h
  cases hf : findk st (firstk n) with
  | none => rw [hf] at h; simp at h
  | some k =>
    rw [hf] at h
    cases hl : st.free k with
    | nil => simp [hl] at h
    | cons q rest =>
      simp only [hl, Prod.mk.injEq, Option.some.injEq] at h
      obtain ⟨hq, hst⟩ := h
      subst hq
      exact ⟨k, rest, rfl, hl, hst.symm⟩

/-! ### `bd_free`: the merge loop always exits on its first test -/

theorem bd_freeLoop_succ (p k c : Nat) (st : BDState) :
    bd_freeLoop p k (c + 1) st = (k, p, setAlloc st k (blk_index k p / 2)) := by
  rw [bd_freeLoop]
  have : bit_isset ((setAlloc st k (blk_index k p / 2)).alloc k) (blk_index k p / 2)
      = true := by
    rw [setAlloc_alloc, if_pos rfl, bit_isset_set_self]
  simp only [this, if_true]

/-- `bd_free` in closed form: the alloc pair bit of the freed block is set
(when the recovered class is below `MAXSIZE`), the block is pushed onto the
free list of its recovered class, and the ghost entry is discharged; nothing
else changes.  In particular the buddy is never removed and no split bit is
ever cleared. -/
theorem bd_free_eq (st : BDState) (p : Nat) :
    bd_free st p =
      (let c := size st p
       let stA := if c < st.nsizes - 1 then setAlloc st c (blk_index c p / 2) else st
       let st1 := pushFree stA c p
       { st1 with live := st1.live.eraseP (fun x => x.1 == p) }) := by
  simp only [bd_free]
  rcases hc : st.nsizes - 1 - size st p with _ | c
  · have hge : ¬ size st p < st.nsizes - 1 := by omega
    simp only [bd_freeLoop, hge, if_false]
  · have hlt : size st p < st.nsizes - 1 := by omega
    rw [bd_freeLoop_succ]
    simp only [hlt, if_true]

/-! ### `bd_mark` alignment check -/

theorem bd_mark_none_iff (st : BDState) (a b : Nat) (il : Bool) :
    bd_mark st a b il = none ↔ ¬(a % LEAF_SIZE = 0 ∧ b % LEAF_SIZE = 0) := by
  unfold bd_mark
  by_cases h : a % LEAF_SIZE = 0 ∧ b % LEAF_SIZE = 0 <;> simp [h]

/-! ### `size` characterization -/

theorem sizeAux_nohit (st : BDState) (p : Nat) : ∀ (fuel k : Nat),
    (∀ j, k ≤ j → j < k + fuel →
      bit_isset (st.split (j + 1)) (blk_index (j + 1) p) = false) →
    sizeAux st p fuel k = 0 := by
  intro fuel
  induction fuel with
  | zero => intro k _; rw [sizeAux]
  | succ f ih =>
    intro k h
    rw [sizeAux]
    have h0 : bit_isset (st.split (k + 1)) (blk_index (k + 1) p) = false :=
      h k le_rfl (by omega)
    rw [h0]
    simp only [Bool.false_eq_true, if_false]
    exact ih (k + 1) (fun j h1 h2 => h j (by omega) (by omega))

theorem sizeAux_hit (st : BDState) (p : Nat) : ∀ (fuel k k' : Nat),
    k ≤ k' → k' < k + fuel →
    bit_isset (st.split (k' + 1)) (blk_index (k' + 1) p) = true →
    (∀ j, k ≤ j → j < k' →
      bit_isset (st.split (j + 1)) (blk_index (j + 1) p) = false) →
    sizeAux st p fuel k = k' := by
  intro fuel
  induction fuel with
  | zero => intro k k' h1 h2 _ _; omega
  | succ f ih =>
    intro k k' h1 h2 hset hbelow
    rw [sizeAux]
    rcases Nat.eq_or_lt_of_le h1 with he | hlt
    · subst he; rw [hset]; simp
    · have h0 : bit_isset (st.split (k + 1)) (blk_index (k + 1) p) = false :=
        hbelow k le_rfl hlt
      rw [h0]
      simp only [Bool.false_eq_true, if_false]
      exact ih (k + 1) k' hlt (by omega) hset (fun j ha hb => hbelow j (by omega) hb)

theorem size_eq_of_hit {st : BDState} {p k : Nat} (hk : k < st.nsizes)
    (hset : bit_isset (st.split (k + 1)) (blk_index (k + 1) p) = true)
    (hbelow : ∀ j, j < k →
      bit_isset (st.split (j + 1)) (blk_index (j + 1) p) = false) :
    size st p = k :=
  sizeAux_hit st p st.nsizes 0 k (Nat.zero_le k) (by omega) hset
    (fun j _ hb => hbelow j hb)

theorem size_eq_zero_of_nohit {st : BDState} {p : Nat}
    (h : ∀ j, j < st.nsizes →
      bit_isset (st.split (j + 1)) (blk_index (j + 1) p) = false) :
    size st p = 0 :=
  sizeAux_nohit st p st.nsizes 0 (fun j _ hb => h j (by omega))

/-! ### Summation helpers -/

theorem foldl_add_eq_sum (g : Nat → Nat) :
    ∀ (l : List Nat) (c : Nat), l.foldl (fun s j => s + g j) c = c + (l.map g).sum := by
  intro l
  induction l with
  | nil => intro c; simp
  | cons x xs ih => intro c; simp only [List.foldl_cons, List.map_cons, List.sum_cons]
                    rw [ih]; omega

theorem sum_map_single_bump (g : Nat → Nat) (k d : Nat) :
    ∀ n, k < n →
      ((List.range n).map fun j => g j + if j = k then d else 0).sum
        = ((List.range n).map g).sum + d := by
  intro n
  induction n with
  | zero => intro h; omega
  | succ n ih =>
    intro hk
    rw [List.range_succ, List.map_append, List.map_append, List.sum_append,
      List.sum_append]
    simp only [List.map_cons, List.map_nil, List.sum_cons, List.sum_nil]
    by_cases h : k = n
    · subst h
      have hpre : ((List.range k).map fun j => g j + if j = k then d else 0)
          = (List.range k).map g := by
        apply List.map_congr_left
        intro x hx
        have : x < k := List.mem_range.mp hx
        simp [Nat.ne_of_lt this]
      have hlast : (if k = k then d else 0) = d := if_pos rfl
      rw [hpre, hlast]
      omega
    · have hkn : k < n := by omega
      have hlast : (if n = k then d else 0) = 0 := if_neg (fun hh => h hh.symm)
      rw [ih hkn, hlast]
      omega

/-- Two states with the same class count and free lists have the same
free-list byte total. -/
theorem freeListBytes_congr {s1 s2 : BDState}
    (h1 : s1.nsizes = s2.nsizes) (h2 : s1.free = s2.free) :
    freeListBytes s1 = freeListBytes s2 := by
  unfold freeListBytes
  rw [h1, h2]

theorem freeListBytes_pushFree (st : BDState) (k a : Nat) (hk : k < st.nsizes) :
    freeListBytes (pushFree st k a) = freeListBytes st + BLK_SIZE k := by
  unfold freeListBytes
  rw [foldl_add_eq_sum, foldl_add_eq_sum, pushFree_nsizes]
  have hmap : (List.range st.nsizes).map
        (fun j => ((pushFree st k a).free j).length * BLK_SIZE j)
      = (List.range st.nsizes).map
        (fun j => (st.free j).length * BLK_SIZE j + if j = k then BLK_SIZE k else 0) := by
    apply List.map_congr_left
    intro j _
    rw [pushFree_free]
    by_cases h : j = k
    · subst h
      have h1 : (if j = j then a :: st.free j else st.free j) = a :: st.free j :=
        if_pos rfl
      have h2 : (if j = j then BLK_SIZE j else 0) = BLK_SIZE j := if_pos rfl
      rw [h1, h2, List.length_cons]
      ring
    · simp [h]
  rw [hmap, sum_map_single_bump _ k _ st.nsizes hk]
  omega

/-! ### `markRange` closed form -/

theorem markRange_nsizes (k : Nat) : ∀ (c bi : Nat) (st : BDState),
    (markRange k bi c st).nsizes = st.nsizes := by
  intro c
  induction c with
  | zero => intro bi st; rfl
  | succ c ih =>
    intro bi st
    rw [markRange, ih]
    split_ifs <;> rfl

theorem markRange_free (k : Nat) : ∀ (c bi : Nat) (st : BDState),
    (markRange k bi c st).free = st.free := by
  intro c
  induction c with
  | zero => intro bi st; rfl
  | succ c ih =>
    intro bi st
    rw [markRange, ih]
    split_ifs <;> rfl

theorem markRange_live (k : Nat) : ∀ (c bi : Nat) (st : BDState),
    (markRange k bi c st).live = st.live := by
  intro c
  induction c with
  | zero => intro bi st; rfl
  | succ c ih =>
    intro bi st
    rw [markRange, ih]
    split_ifs <;> rfl

theorem markRange_split (k : Nat) : ∀ (c bi : Nat) (st : BDState) (j i : Nat),
    bit_isset ((markRange k bi c st).split j) i = true ↔
      (bit_isset (st.split j) i = true ∨ (j = k ∧ 1 ≤ k ∧ bi ≤ i ∧ i < bi + c)) := by
  intro c
  induction c with
  | zero =>
    intro bi st j i
    rw [markRange]
    constructor
    · intro h; exact Or.inl h
    · rintro (h | h)
      · exact h
      · omega
  | succ c ih =>
    intro bi st j i
    rw [markRange, ih]
    by_cases hk : 0 < k
    · rw [if_pos hk]
      have hsplit : (flipAlloc (setSplit st k bi) k (bi / 2)).split = (setSplit st k bi).split :=
        flipAlloc_split _ _ _
      rw [hsplit, bit_isset_setSplit]
      constructor
      · rintro ((⟨hjk, hib⟩ | hset) | ⟨hjk, h1k, hbi, hic⟩)
        · exact Or.inr ⟨hjk, hk, by omega, by omega⟩
        · exact Or.inl hset
        · exact Or.inr ⟨hjk, h1k, by omega, by omega⟩
      · rintro (hset | ⟨hjk, h1k, hbi, hic⟩)
        · exact Or.inl (Or.inr hset)
        · by_cases hib : i = bi
          · exact Or.inl (Or.inl ⟨hjk, hib⟩)
          · exact Or.inr ⟨hjk, h1k, by omega, by omega⟩
    · rw [if_neg hk]
      have hsplit : (flipAlloc st k (bi / 2)).split = st.split := flipAlloc_split _ _ _
      rw [hsplit]
      constructor
      · rintro (hset | ⟨hjk, h1k, hbi, hic⟩)
        · exact Or.inl hset
        · exact Or.inr ⟨hjk, h1k, by omega, by omega⟩
      · rintro (hset | ⟨_, h1k, _, _⟩)
        · exact Or.inl hset
        · omega

/-! ### `markStep` closed form -/

theorem ite_setAlloc_free (c : Prop) [Decidable c] (s : BDState) (k x : Nat) :
    (if c then setAlloc s k x else s).free = s.free := by
  split_ifs <;> rfl

theorem ite_setAlloc_split (c : Prop) [Decidable c] (s : BDState) (k x : Nat) :
    (if c then setAlloc s k x else s).split = s.split := by
  split_ifs <;> rfl

theorem ite_setAlloc_nsizes (c : Prop) [Decidable c] (s : BDState) (k x : Nat) :
    (if c then setAlloc s k x else s).nsizes = s.nsizes := by
  split_ifs <;> rfl

theorem ite_setAlloc_live (c : Prop) [Decidable c] (s : BDState) (k x : Nat) :
    (if c then setAlloc s k x else s).live = s.live := by
  split_ifs <;> rfl

theorem markStep_frst (a b : Nat) (il : Bool) (acc : Nat × BDState) (k : Nat) :
    (if k < acc.2.nsizes - 2 then
        if il = true ∧ blk_index_next k b % 2 = 1 then
          (acc.1 + BLK_SIZE k, pushFree acc.2 k (addr k (blk_index_next k b)))
        else if il = false ∧ blk_index k a % 2 = 1 then
          (acc.1 + BLK_SIZE k, pushFree acc.2 k (addr k (blk_index k a - 1)))
        else (acc.1, acc.2)
      else (acc.1, acc.2)) =
      if k < acc.2.nsizes - 2 ∧ markPushCond a b il k then
        (acc.1 + BLK_SIZE k, pushFree acc.2 k (markPushAddr a b il k))
      else (acc.1, acc.2) := by
  by_cases h1 : k < acc.2.nsizes - 2
  · rw [if_pos h1]
    by_cases h2 : il = true ∧ blk_index_next k b % 2 = 1
    · rw [if_pos h2]
      have hc : k < acc.2.nsizes - 2 ∧ markPushCond a b il k := ⟨h1, Or.inl h2⟩
      rw [if_pos hc]
      unfold markPushAddr
      rw [if_pos h2.1]
    · rw [if_neg h2]
      by_cases h3 : il = false ∧ blk_index k a % 2 = 1
      · rw [if_pos h3]
        have hc : k < acc.2.nsizes - 2 ∧ markPushCond a b il k := ⟨h1, Or.inr h3⟩
        rw [if_pos hc]
        unfold markPushAddr
        have : ¬ il = true := by rw [h3.1]; simp
        rw [if_neg this]
      · rw [if_neg h3]
        have hc : ¬ (k < acc.2.nsizes - 2 ∧ markPushCond a b il k) := by
          rintro ⟨_, hco | hco⟩
          · exact h2 hco
          · exact h3 hco
        rw [if_neg hc]
  · rw [if_neg h1]
    have hc : ¬ (k < acc.2.nsizes - 2 ∧ markPushCond a b il k) := fun hh => h1 hh.1
    rw [if_neg hc]

theorem markStep_eq (a b : Nat) (il : Bool) (acc : Nat × BDState) (k : Nat) :
    markStep a b il acc k =
      (acc.1 + (if k < acc.2.nsizes - 2 ∧ markPushCond a b il k then BLK_SIZE k else 0),
       markRange k (blk_index k a) (blk_index_next k b - blk_index k a)
         (let s1 := if k < acc.2.nsizes - 2 ∧ markPushCond a b il k then
              pushFree acc.2 k (markPushAddr a b il k) else acc.2
          let s2 := if blk_index k a % 2 ≠ 0 then setAlloc s1 k (blk_index k a / 2) else s1
          if blk_index_next k b % 2 ≠ 0 then setAlloc s2 k (blk_index_next k b / 2)
          else s2)) := by
  simp only [markStep]
  rw [markStep_frst]
  by_cases hc : k < acc.2.nsizes - 2 ∧ markPushCond a b il k
  · rw [if_pos hc, if_pos hc, if_pos hc]
  · rw [if_neg hc, if_neg hc, if_neg hc]
    simp

theorem markStep_nsizes (a b : Nat) (il : Bool) (acc : Nat × BDState) (k : Nat) :
    (markStep a b il acc k).2.nsizes = acc.2.nsizes := by
  rw [markStep_eq]
  simp only [markRange_nsizes, ite_setAlloc_nsizes]
  split_ifs <;> rfl

theorem markStep_live (a b : Nat) (il : Bool) (acc : Nat × BDState) (k : Nat) :
    (markStep a b il acc k).2.live = acc.2.live := by
  rw [markStep_eq]
  simp only [markRange_live, ite_setAlloc_live]
  split_ifs <;> rfl

theorem markStep_free (a b : Nat) (il : Bool) (acc : Nat × BDState) (k j : Nat) :
    (markStep a b il acc k).2.free j =
      if j = k ∧ k < acc.2.nsizes - 2 ∧ markPushCond a b il k then
        markPushAddr a b il k :: acc.2.free j
      else acc.2.free j := by
  rw [markStep_eq]
  simp only [markRange_free, ite_setAlloc_free]
  by_cases hc : k < acc.2.nsizes - 2 ∧ markPushCond a b il k
  · rw [if_pos hc]
    by_cases hj : j = k
    · subst hj
      rw [if_pos ⟨rfl, hc⟩, pushFree_free, if_pos rfl]
    · rw [if_neg (fun hh => hj hh.1), pushFree_free, if_neg hj]
  · rw [if_neg hc, if_neg (fun hh => hc hh.2)]

theorem markStep_split (a b : Nat) (il : Bool) (acc : Nat × BDState) (k j i : Nat) :
    bit_isset ((markStep a b il acc k).2.split j) i = true ↔
      (bit_isset (acc.2.split j) i = true ∨
        (j = k ∧ 1 ≤ k ∧ blk_index k a ≤ i ∧
          i < blk_index k a + (blk_index_next k b - blk_index k a))) := by
  rw [markStep_eq]
  rw [markRange_split]
  simp only [ite_setAlloc_split]
  by_cases hc : k < acc.2.nsizes - 2 ∧ markPushCond a b il k
  · rw [if_pos hc, pushFree_split]
  · rw [if_neg hc]

theorem markStep_fst (a b : Nat) (il : Bool) (acc : Nat × BDState) (k : Nat) :
    (markStep a b il acc k).1 =
      acc.1 + (if k < acc.2.nsizes - 2 ∧ markPushCond a b il k then BLK_SIZE k else 0) := by
  rw [markStep_eq]

theorem markStep_bytes (a b : Nat) (il : Bool) (acc : Nat × BDState) (k : Nat) :
    freeListBytes (markStep a b il acc k).2 + acc.1 =
      freeListBytes acc.2 + (markStep a b il acc k).1 := by
  rw [markStep_fst]
  have hbytes : freeListBytes (markStep a b il acc k).2 =
      freeListBytes acc.2 +
        (if k < acc.2.nsizes - 2 ∧ markPushCond a b il k then BLK_SIZE k else 0) := by
    have hns : (markStep a b il acc k).2.nsizes = acc.2.nsizes := markStep_nsizes a b il acc k
    by_cases hc : k < acc.2.nsizes - 2 ∧ markPushCond a b il k
    · rw [if_pos hc]
      have hfree : (markStep a b il acc k).2.free =
          (pushFree acc.2 k (markPushAddr a b il k)).free := by
        funext j
        rw [markStep_free]
        by_cases hj : j = k
        · subst hj
          rw [if_pos ⟨rfl, hc⟩, pushFree_free, if_pos rfl]
        · rw [if_neg (fun hh => hj hh.1), pushFree_free, if_neg hj]
      have h1 : freeListBytes (markStep a b il acc k).2 =
          freeListBytes (pushFree acc.2 k (markPushAddr a b il k)) := by
        apply freeListBytes_congr
        · rw [hns, pushFree_nsizes]
        · exact hfree
      rw [h1, freeListBytes_pushFree]
      omega
    · rw [if_neg hc]
      have hfree : (markStep a b il acc k).2.free = acc.2.free := by
        funext j
        rw [markStep_free, if_neg (fun hh => hc hh.2)]
      have h1 : freeListBytes (markStep a b il acc k).2 = freeListBytes acc.2 := by
        apply freeListBytes_congr
        · rw [hns]
        · exact hfree
      omega
  omega

/-! ### `markAll` closed form -/

theorem markFold_nsizes (a b : Nat) (il : Bool) (acc : Nat × BDState) :
    ∀ m, (((List.range m).foldl (markStep a b il) acc).2).nsizes = acc.2.nsizes := by
  intro m
  induction m with
  | zero => rfl
  | succ m ih =>
    rw [List.range_succ, List.foldl_append, List.foldl_cons, List.foldl_nil,
      markStep_nsizes, ih]

theorem markFold_live (a b : Nat) (il : Bool) (acc : Nat × BDState) :
    ∀ m, (((List.range m).foldl (markStep a b il) acc).2).live = acc.2.live := by
  intro m
  induction m with
  | zero => rfl
  | succ m ih =>
    rw [List.range_succ, List.foldl_append, List.foldl_cons, List.foldl_nil,
      markStep_live, ih]

theorem markFold_free (a b : Nat) (il : Bool) (acc : Nat × BDState) :
    ∀ m j, (((List.range m).foldl (markStep a b il) acc).2).free j =
      if j < m ∧ j < acc.2.nsizes - 2 ∧ markPushCond a b il j then
        markPushAddr a b il j :: acc.2.free j
      else acc.2.free j := by
  intro m
  induction m with
  | zero =>
    intro j
    rw [if_neg (by omega)]
    rfl
  | succ m ih =>
    intro j
    rw [List.range_succ, List.foldl_append, List.foldl_cons, List.foldl_nil,
      markStep_free, markFold_nsizes]
    by_cases hj : j = m
    · subst hj
      by_cases hc : j < acc.2.nsizes - 2 ∧ markPushCond a b il j
      · rw [if_pos ⟨rfl, hc⟩, ih, if_neg (fun hh => Nat.lt_irrefl j hh.1),
          if_pos ⟨Nat.lt_succ_self j, hc⟩]
      · rw [if_neg (fun hh => hc hh.2), ih, if_neg (fun hh => Nat.lt_irrefl j hh.1),
          if_neg (fun hh => hc ⟨hh.2.1, hh.2.2⟩)]
    · rw [if_neg (fun hh => hj hh.1), ih]
      by_cases hm : j < m ∧ j < acc.2.nsizes - 2 ∧ markPushCond a b il j
      · rw [if_pos hm, if_pos ⟨by omega, hm.2⟩]
      · rw [if_neg hm]
        rw [if_neg (fun hh => hm ⟨by omega, hh.2⟩)]

theorem markFold_split (a b : Nat) (il : Bool) (acc : Nat × BDState) :
    ∀ m j i, bit_isset ((((List.range m).foldl (markStep a b il) acc).2).split j) i = true ↔
      (bit_isset (acc.2.split j) i = true ∨
        (1 ≤ j ∧ j < m ∧ blk_index j a ≤ i ∧
          i < blk_index j a + (blk_index_next j b - blk_index j a))) := by
  intro m
  induction m with
  | zero =>
    intro j i
    constructor
    · intro h; exact Or.inl h
    · rintro (h | h)
      · exact h
      · omega
  | succ m ih =>
    intro j i
    rw [List.range_succ, List.foldl_append, List.foldl_cons, List.foldl_nil,
      markStep_split]
    rw [ih j i]
    constructor
    · rintro ((hset | ⟨h1, h2, h3, h4⟩) | ⟨hjm, h1, h3, h4⟩)
      · exact Or.inl hset
      · exact Or.inr ⟨h1, by omega, h3, h4⟩
      · subst hjm; exact Or.inr ⟨h1, by omega, h3, h4⟩
    · rintro (hset | ⟨h1, h2, h3, h4⟩)
      · exact Or.inl (Or.inl hset)
      · by_cases hjm : j = m
        · subst hjm; exact Or.inr ⟨rfl, h1, h3, h4⟩
        · exact Or.inl (Or.inr ⟨h1, by omega, h3, h4⟩)

theorem markFold_bytes (a b : Nat) (il : Bool) (st : BDState) :
    ∀ m, freeListBytes (((List.range m).foldl (markStep a b il) (0, st)).2) =
      freeListBytes st + ((List.range m).foldl (markStep a b il) (0, st)).1 := by
  intro m
  induction m with
  | zero => rfl
  | succ m ih =>
    rw [List.range_succ, List.foldl_append, List.foldl_cons, List.foldl_nil]
    have hstep := markStep_bytes a b il ((List.range m).foldl (markStep a b il) (0, st)) m
    omega

theorem markAll_nsizes (st : BDState) (a b : Nat) (il : Bool) :
    (markAll st a b il).2.nsizes = st.nsizes :=
  markFold_nsizes a b il (0, st) st.nsizes

theorem markAll_live (st : BDState) (a b : Nat) (il : Bool) :
    (markAll st a b il).2.live = st.live :=
  markFold_live a b il (0, st) st.nsizes

theorem markAll_free (st : BDState) (a b : Nat) (il : Bool) (j : Nat) :
    (markAll st a b il).2.free j =
      if j < st.nsizes - 2 ∧ markPushCond a b il j then
        markPushAddr a b il j :: st.free j
      else st.free j := by
  rw [markAll, markFold_free]
  by_cases hc : j < st.nsizes - 2 ∧ markPushCond a b il j
  · rw [if_pos ⟨by omega, hc⟩, if_pos hc]
  · rw [if_neg (fun hh => hc ⟨hh.2.1, hh.2.2⟩), if_neg hc]

theorem markAll_split (st : BDState) (a b : Nat) (il : Bool) (j i : Nat) (hab : a ≤ b) :
    bit_isset ((markAll st a b il).2.split j) i = true ↔
      (bit_isset (st.split j) i = true ∨
        (1 ≤ j ∧ j < st.nsizes ∧ blk_index j a ≤ i ∧ i < blk_index_next j b)) := by
  rw [markAll, markFold_split]
  have hle : blk_index j a ≤ blk_index_next j b := by
    unfold blk_index blk_index_next
    have : a / BLK_SIZE j ≤ b / BLK_SIZE j := Nat.div_le_div_right hab
    split_ifs <;> omega
  constructor
  · rintro (hset | ⟨h1, h2, h3, h4⟩)
    · exact Or.inl hset
    · exact Or.inr ⟨h1, h2, h3, by omega⟩
  · rintro (hset | ⟨h1, h2, h3, h4⟩)
    · exact Or.inl hset
    · exact Or.inr ⟨h1, h2, h3, by omega⟩

theorem markAll_bytes (st : BDState) (a b : Nat) (il : Bool) :
    freeListBytes (markAll st a b il).2 = freeListBytes st + (markAll st a b il).1 :=
  markFold_bytes a b il st st.nsizes

/-! ### `ROUNDUP` and divisibility facts -/

theorem ROUNDUP_dvd (n szv : Nat) : szv ∣ ROUNDUP n szv := by
  unfold ROUNDUP
  split_ifs
  · exact dvd_zero _
  · exact Dvd.intro_left _ rfl

theorem mod_eq_zero_of_dvd {d n : Nat} (h : d ∣ n) : n % d = 0 := by
  obtain ⟨c, rfl⟩ := h
  exact Nat.mul_mod_right d c

theorem le_ROUNDUP (n szv : Nat) (h : 0 < szv) : n ≤ ROUNDUP n szv := by
  unfold ROUNDUP
  split_ifs with h0
  · omega
  · have h1 := Nat.div_add_mod (n - 1) szv
    have h2 : (n - 1) % szv < szv := Nat.mod_lt _ h
    have h3 : ((n - 1) / szv + 1) * szv = szv * ((n - 1) / szv) + szv := by ring
    omega

theorem ROUNDUP_le (n szv m : Nat) (_h : 0 < szv) (hd : szv ∣ m) (hle : n ≤ m) :
    ROUNDUP n szv ≤ m := by
  unfold ROUNDUP
  split_ifs with h0
  · omega
  · obtain ⟨c, rfl⟩ := hd
    have h3 : (n - 1) / szv < c := by
      apply Nat.div_lt_of_lt_mul
      omega
    calc ((n - 1) / szv + 1) * szv ≤ c * szv := Nat.mul_le_mul_right _ (by omega)
      _ = szv * c := Nat.mul_comm _ _

theorem LEAF_dvd_BLK (k : Nat) : LEAF_SIZE ∣ BLK_SIZE k :=
  ⟨2 ^ k, by unfold BLK_SIZE; ring⟩

theorem bit_isset_zero (i : Nat) : bit_isset 0 i = false := by
  unfold bit_isset
  simp

theorem freeListBytes_empty (ns : Nat) :
    freeListBytes ⟨ns, fun _ => 0, fun _ => 0, fun _ => [], []⟩ = 0 := by
  unfold freeListBytes
  rw [foldl_add_eq_sum]
  simp

/-! ### `bd_init` unpacking -/

theorem bd_init_some {b e : Nat} {st : BDState} {m : InitMeta}
    (h : bd_init b e = some (st, m)) :
    m.metaBytes = initM b e ∧
    m.unavailBytes = initU b e ∧
    st.nsizes = initNs b e ∧
    st.live = [] ∧
    (∀ j, st.free j =
      (if j < initNs b e - 2 ∧ markPushCond (initR b e) (initHeap b e) false j then
        [markPushAddr (initR b e) (initHeap b e) false j] else []) ++
      (if j < initNs b e - 2 ∧ markPushCond 0 (initM b e) true j then
        [markPushAddr 0 (initM b e) true j] else [])) ∧
    (∀ j i, bit_isset (st.split j) i = true ↔
      ((1 ≤ j ∧ j < initNs b e ∧ i < blk_index_next j (initM b e)) ∨
       (1 ≤ j ∧ j < initNs b e ∧ blk_index j (initR b e) ≤ i ∧
         i < blk_index_next j (initHeap b e)))) ∧
    (m.leftFree : Int) + m.rightFree =
      (initHeap b e : Int) - initM b e - initU b e ∧
    freeListBytes st = m.leftFree + m.rightFree := by
  have hM16 : initM b e % LEAF_SIZE = 0 := mod_eq_zero_of_dvd (ROUNDUP_dvd _ _)
  have hheapd : LEAF_SIZE ∣ initHeap b e := LEAF_dvd_BLK _
  have hud : LEAF_SIZE ∣ initU b e := by
    unfold initU
    split_ifs with hpos
    · exact ROUNDUP_dvd _ _
    · have hz : initHeap b e - (e - ROUNDUP b LEAF_SIZE) = 0 := by omega
      rw [hz]
      exact dvd_zero _
  have hR16 : initR b e % LEAF_SIZE = 0 :=
    mod_eq_zero_of_dvd (Nat.dvd_sub' hheapd hud)
  have hheap16 : initHeap b e % LEAF_SIZE = 0 := mod_eq_zero_of_dvd hheapd
  have h016 : (0 : Nat) % LEAF_SIZE = 0 := Nat.zero_mod _
  set st0 : BDState := ⟨initNs b e, fun _ => 0, fun _ => 0, fun _ => [], []⟩ with hst0
  have hm1 : bd_mark st0 0 (initM b e) true = some (markAll st0 0 (initM b e) true) := by
    unfold bd_mark
    rw [if_pos ⟨h016, hM16⟩]
  rcases hL : markAll st0 0 (initM b e) true with ⟨lf, st1⟩
  have hm2 : bd_mark st1 (initR b e) (initHeap b e) false =
      some (markAll st1 (initR b e) (initHeap b e) false) := by
    unfold bd_mark
    rw [if_pos ⟨hR16, hheap16⟩]
  rcases hR : markAll st1 (initR b e) (initHeap b e) false with ⟨rf, st2⟩
  simp only [bd_init, hm1, hL] at h
  simp only [hm2, hR] at h
  by_cases hck :
      (lf : Int) + rf = (initHeap b e : Int) - initM b e - initU b e
  · rw [if_pos hck] at h
    simp only [Option.some.injEq, Prod.mk.injEq] at h
    obtain ⟨hst, hm⟩ := h
    subst hst
    subst hm
    have hns1 : st1.nsizes = initNs b e := by
      have h1 := markAll_nsizes st0 0 (initM b e) true
      rw [hL] at h1
      exact h1
    have hns2 : st2.nsizes = initNs b e := by
      have h1 := markAll_nsizes st1 (initR b e) (initHeap b e) false
      rw [hR] at h1
      rw [h1, hns1]
    have hlive1 : st1.live = [] := by
      have h1 := markAll_live st0 0 (initM b e) true
      rw [hL] at h1
      exact h1
    have hlive2 : st2.live = [] := by
      have h1 := markAll_live st1 (initR b e) (initHeap b e) false
      rw [hR] at h1
      rw [h1, hlive1]
    have hfree1 : ∀ j, st1.free j =
        (if j < initNs b e - 2 ∧ markPushCond 0 (initM b e) true j then
          [markPushAddr 0 (initM b e) true j] else []) := by
      intro j
      have h1 := markAll_free st0 0 (initM b e) true j
      rw [hL] at h1
      rw [h1]
    have hfree2 : ∀ j, st2.free j =
        (if j < initNs b e - 2 ∧ markPushCond (initR b e) (initHeap b e) false j then
          [markPushAddr (initR b e) (initHeap b e) false j] else []) ++
        (if j < initNs b e - 2 ∧ markPushCond 0 (initM b e) true j then
          [markPushAddr 0 (initM b e) true j] else []) := by
      intro j
      have h1 := markAll_free st1 (initR b e) (initHeap b e) false j
      rw [hR] at h1
      rw [h1, hns1, hfree1 j]
      split_ifs <;> rfl
    have hsplit1 : ∀ j i, bit_isset (st1.split j) i = true ↔
        (1 ≤ j ∧ j < initNs b e ∧ i < blk_index_next j (initM b e)) := by
      intro j i
      have h1 := markAll_split st0 0 (initM b e) true j i (Nat.zero_le _)
      rw [hL] at h1
      rw [h1]
      have hz : bit_isset (st0.split j) i = false := bit_isset_zero i
      rw [hz]
      have hbz : blk_index j 0 = 0 := Nat.zero_div _
      constructor
      · rintro (hfalse | ⟨h1', h2', _, h4'⟩)
        · exact absurd hfalse (by simp)
        · exact ⟨h1', h2', h4'⟩
      · rintro ⟨h1', h2', h4'⟩
        exact Or.inr ⟨h1', h2', by omega, h4'⟩
    have hsplit2 : ∀ j i, bit_isset (st2.split j) i = true ↔
        ((1 ≤ j ∧ j < initNs b e ∧ i < blk_index_next j (initM b e)) ∨
         (1 ≤ j ∧ j < initNs b e ∧ blk_index j (initR b e) ≤ i ∧
           i < blk_index_next j (initHeap b e))) := by
      intro j i
      have h1 := markAll_split st1 (initR b e) (initHeap b e) false j i (Nat.sub_le _ _)
      rw [hR] at h1
      rw [h1, hns1, hsplit1 j i]
    have hbytes : freeListBytes st2 = lf + rf := by
      have h1 : freeListBytes st2 = freeListBytes st1 + rf := by
        have hb := markAll_bytes st1 (initR b e) (initHeap b e) false
        rw [hR] at hb
        exact hb
      have h2 : freeListBytes st1 = freeListBytes st0 + lf := by
        have hb := markAll_bytes st0 0 (initM b e) true
        rw [hL] at hb
        exact hb
      have h3 : freeListBytes st0 = 0 := freeListBytes_empty _
      omega
    exact ⟨rfl, rfl, hns2, hlive2, hfree2, hsplit2, hck, hbytes⟩
  · rw [if_neg hck] at h
    cases h

/-! ### Permutation bookkeeping for `blocks` -/

theorem flatMap_congr {α : Type} {f g : Nat → List α} :
    ∀ l : List Nat, (∀ x ∈ l, f x = g x) → l.flatMap f = l.flatMap g := by
  intro l
  induction l with
  | nil => intro _; rfl
  | cons x xs ih =>
    intro h
    simp only [List.flatMap_cons]
    rw [h x (by simp), ih (fun y hy => h y (by simp [hy]))]

theorem flatMap_extract {α : Type} (f : Nat → List α) :
    ∀ (l : List Nat), l.Nodup → ∀ k ∈ l,
      List.Perm (l.flatMap f)
        (f k ++ l.flatMap (fun x => if x = k then [] else f x)) := by
  intro l
  induction l with
  | nil => intro _ k hk; cases hk
  | cons x xs ih =>
    intro hnd k hk
    have hnd' : xs.Nodup := (List.nodup_cons.mp hnd).2
    have hxnot : x ∉ xs := (List.nodup_cons.mp hnd).1
    rcases List.mem_cons.mp hk with he | hmem
    · subst he
      have hif : (if k = k then ([] : List α) else f k) = [] := if_pos rfl
      have hcg : xs.flatMap (fun y => if y = k then [] else f y) = xs.flatMap f := by
        apply flatMap_congr
        intro y hy
        have : y ≠ k := fun hh => hxnot (hh ▸ hy)
        rw [if_neg this]
      simp only [List.flatMap_cons, if_true, List.nil_append]
      rw [hcg]
    · have hxk : x ≠ k := fun hh => hxnot (hh ▸ hmem)
      simp only [List.flatMap_cons, if_neg hxk]
      have h1 : List.Perm (f x ++ xs.flatMap f)
          (f x ++ (f k ++ xs.flatMap fun y => if y = k then [] else f y)) :=
        List.Perm.append_left _ (ih hnd' k hmem)
      have h2 : List.Perm
          (f x ++ (f k ++ xs.flatMap fun y => if y = k then [] else f y))
          (f k ++ (f x ++ xs.flatMap fun y => if y = k then [] else f y)) := by
        rw [← List.append_assoc, ← List.append_assoc]
        exact List.Perm.append_right _ List.perm_append_comm
      exact h1.trans h2

theorem freeBlocks_extract (st : BDState) (k : Nat) (hk : k < st.nsizes) :
    List.Perm (freeBlocks st)
      (((st.free k).map fun a => (a, k)) ++ freeBlocksExcept st k) := by
  unfold freeBlocks freeBlocksExcept
  exact flatMap_extract _ _ (List.nodup_range _) k (List.mem_range.mpr hk)

theorem freeBlocksExcept_setFreeList (st : BDState) (k : Nat) (l : List Nat) :
    freeBlocksExcept (setFreeList st k l) k = freeBlocksExcept st k := by
  unfold freeBlocksExcept
  rw [setFreeList_nsizes]
  apply flatMap_congr
  intro j _
  by_cases hj : j = k
  · rw [if_pos hj, if_pos hj]
  · rw [if_neg hj, if_neg hj, setFreeList_free, if_neg hj]

theorem freeBlocks_setFreeList (st : BDState) (k : Nat) (l : List Nat)
    (hk : k < st.nsizes) :
    List.Perm (freeBlocks (setFreeList st k l))
      ((l.map fun a => (a, k)) ++ freeBlocksExcept st k) := by
  have h1 := freeBlocks_extract (setFreeList st k l) k (by rw [setFreeList_nsizes]; exact hk)
  rw [setFreeList_free, if_pos rfl, freeBlocksExcept_setFreeList] at h1
  exact h1

theorem blocks_pushFree (st : BDState) (k a : Nat) (hk : k < st.nsizes) :
    List.Perm (blocks (pushFree st k a)) ((a, k) :: blocks st) := by
  unfold blocks
  rw [pushFree_live]
  apply List.Perm.trans (List.Perm.append (freeBlocks_setFreeList st k _ hk) (List.Perm.refl _))
  have h2 := freeBlocks_extract st k hk
  have he : ((a :: st.free k).map fun x => (x, k)) ++ freeBlocksExcept st k ++ st.live
      = (a, k) :: (((st.free k).map fun x => (x, k)) ++ freeBlocksExcept st k ++ st.live) := by
    simp
  rw [he]
  apply List.Perm.cons
  exact List.Perm.append (List.Perm.symm h2) (List.Perm.refl _)

theorem blocks_pop (st : BDState) (k p : Nat) (rest : List Nat)
    (hk : k < st.nsizes) (hfree : st.free k = p :: rest) :
    List.Perm (blocks st) ((p, k) :: blocks (setFreeList st k rest)) := by
  unfold blocks
  rw [setFreeList_live]
  apply List.Perm.trans (List.Perm.append (freeBlocks_extract st k hk) (List.Perm.refl _))
  rw [hfree]
  have he : ((p :: rest).map fun a => (a, k)) ++ freeBlocksExcept st k ++ st.live
      = (p, k) :: ((rest.map fun a => (a, k)) ++ freeBlocksExcept st k ++ st.live) := by
    simp
  rw [he]
  apply List.Perm.cons
  exact List.Perm.append (List.Perm.symm (freeBlocks_setFreeList st k rest hk))
    (List.Perm.refl _)

theorem blocks_setAlloc (st : BDState) (k i : Nat) :
    blocks (setAlloc st k i) = blocks st := rfl

theorem blocks_flipAlloc (st : BDState) (k i : Nat) :
    blocks (flipAlloc st k i) = blocks st := rfl

theorem blocks_setSplit (st : BDState) (k i : Nat) :
    blocks (setSplit st k i) = blocks st := rfl

theorem blocks_liveCons (st : BDState) (x : Nat × Nat) :
    List.Perm (blocks { st with live := x :: st.live }) (x :: blocks st) := by
  unfold blocks
  exact List.perm_middle

/-! ### `bd_splitAux` closed forms -/

theorem splitAux_nsizes (p : Nat) : ∀ (c k : Nat) (st : BDState),
    (bd_splitAux p c k st).nsizes = st.nsizes := by
  intro c
  induction c with
  | zero => intro k st; rfl
  | succ c ih => intro k st; rw [bd_splitAux, ih]; rfl

theorem splitAux_live (p : Nat) : ∀ (c k : Nat) (st : BDState),
    (bd_splitAux p c k st).live = st.live := by
  intro c
  induction c with
  | zero => intro k st; rfl
  | succ c ih => intro k st; rw [bd_splitAux, ih]; rfl

theorem splitPieces_mem (p : Nat) : ∀ (c k : Nat), c ≤ k →
    ∀ x, (x ∈ splitPieces p k c ↔ ∃ j, k - c ≤ j ∧ j < k ∧ x = (p + BLK_SIZE j, j)) := by
  intro c
  induction c with
  | zero =>
    intro k _ x
    simp only [splitPieces, List.not_mem_nil, false_iff]
    rintro ⟨j, h1, h2, _⟩
    omega
  | succ c ih =>
    intro k hck x
    simp only [splitPieces, List.mem_cons]
    rw [ih (k - 1) (by omega) x]
    constructor
    · rintro (he | ⟨j, h1, h2, he⟩)
      · exact ⟨k - 1, by omega, by omega, he⟩
      · exact ⟨j, by omega, by omega, he⟩
    · rintro ⟨j, h1, h2, he⟩
      by_cases hj : j = k - 1
      · subst hj; exact Or.inl he
      · exact Or.inr ⟨j, by omega, by omega, he⟩

theorem blocks_splitAux (p : Nat) : ∀ (c k : Nat) (st : BDState), c ≤ k →
    k ≤ st.nsizes →
    List.Perm (blocks (bd_splitAux p c k st)) (splitPieces p k c ++ blocks st) := by
  intro c
  induction c with
  | zero =>
    intro k st _ _
    rw [bd_splitAux, splitPieces]
    exact List.Perm.refl _
  | succ c ih =>
    intro k st hck hk
    rw [bd_splitAux, splitPieces]
    have hk1 : k - 1 < st.nsizes := by omega
    have h3 := blocks_pushFree
      (flipAlloc (setSplit st k (blk_index k p)) (k - 1) (blk_index (k - 1) p / 2))
      (k - 1) (p + BLK_SIZE (k - 1)) hk1
    rw [blocks_flipAlloc, blocks_setSplit] at h3
    have hns : (pushFree (flipAlloc (setSplit st k (blk_index k p)) (k - 1)
        (blk_index (k - 1) p / 2)) (k - 1) (p + BLK_SIZE (k - 1))).nsizes = st.nsizes := rfl
    have h4 := ih (k - 1)
      (pushFree (flipAlloc (setSplit st k (blk_index k p)) (k - 1)
        (blk_index (k - 1) p / 2)) (k - 1) (p + BLK_SIZE (k - 1)))
      (by omega) (by rw [hns]; omega)
    exact (h4.trans (List.Perm.append_left _ h3)).trans List.perm_middle

theorem splitAux_split (p : Nat) : ∀ (c k : Nat) (st : BDState), c ≤ k →
    ∀ j i, bit_isset ((bd_splitAux p c k st).split j) i = true ↔
      (bit_isset (st.split j) i = true ∨
        (k - c < j ∧ j ≤ k ∧ i = blk_index j p)) := by
  intro c
  induction c with
  | zero =>
    intro k st _ j i
    rw [bd_splitAux]
    constructor
    · intro h; exact Or.inl h
    · rintro (h | h)
      · exact h
      · omega
  | succ c ih =>
    intro k st hck j i
    rw [bd_splitAux]
    have hsp : (pushFree (flipAlloc (setSplit st k (blk_index k p)) (k - 1)
        (blk_index (k - 1) p / 2)) (k - 1) (p + BLK_SIZE (k - 1))).split
        = (setSplit st k (blk_index k p)).split := rfl
    rw [ih (k - 1) _ (by omega) j i]
    rw [hsp, bit_isset_setSplit]
    constructor
    · rintro ((⟨hjk, hib⟩ | hset) | ⟨h1, h2, h3⟩)
      · subst hjk; subst hib; exact Or.inr ⟨by omega, le_rfl, rfl⟩
      · exact Or.inl hset
      · exact Or.inr ⟨by omega, by omega, h3⟩
    · rintro (hset | ⟨h1, h2, h3⟩)
      · exact Or.inl (Or.inr hset)
      · by_cases hjk : j = k
        · subst hjk; exact Or.inl (Or.inl ⟨rfl, h3⟩)
        · exact Or.inr ⟨by omega, by omega, h3⟩

/-! ### The invariant: supporting lemmas -/

theorem BlkDisj_symm : Symmetric BlkDisj := by
  rintro x y (h | h)
  · exact Or.inr h
  · exact Or.inl h

/-- A block nested inside another inherits disjointness from it. -/
theorem BlkDisj_of_sub {x x' y : Nat × Nat}
    (hlo : x.1 ≤ x'.1) (hhi : x'.1 + BLK_SIZE x'.2 ≤ x.1 + BLK_SIZE x.2)
    (hd : BlkDisj x y) : BlkDisj x' y := by
  rcases hd with h | h
  · exact Or.inl (by omega)
  · exact Or.inr (by omega)

theorem div_mul_of_dvd {d x : Nat} (h : d ∣ x) : x / d * d = x :=
  Nat.div_mul_cancel h

theorem add_lt_div_eq {d x c : Nat} (hd : 0 < d) (h : d ∣ x) (hc : c < d) :
    (x + c) / d = x / d := by
  obtain ⟨t, rfl⟩ := h
  rw [Nat.mul_add_div hd, Nat.mul_div_cancel_left _ hd]
  have : c / d = 0 := Nat.div_eq_of_lt hc
  omega

theorem perm_cons_eraseP {α : Type} (q : α → Bool) :
    ∀ (l : List α) (x : α), x ∈ l → q x = true → (∀ y ∈ l, q y = true → y = x) →
      List.Perm l (x :: l.eraseP q) := by
  intro l
  induction l with
  | nil => intro x hx _ _; cases hx
  | cons a as ih =>
    intro x hx hqx huniq
    by_cases hqa : q a = true
    · have hax : a = x := huniq a (by simp) hqa
      subst hax
      rw [List.eraseP_cons_of_pos hqa]
    · rw [List.eraseP_cons_of_neg (by simp [hqa])]
      have hxas : x ∈ as := by
        rcases List.mem_cons.mp hx with he | hm
        · exfalso; rw [he] at hqx; exact hqa hqx
        · exact hm
      have hperm := ih x hxas hqx (fun y hy hqy => huniq y (by simp [hy]) hqy)
      exact (List.Perm.cons a hperm).trans (List.Perm.swap x a _)

theorem freeBlocks_pushFree (st : BDState) (k a : Nat) (hk : k < st.nsizes) :
    List.Perm (freeBlocks (pushFree st k a)) ((a, k) :: freeBlocks st) := by
  apply List.Perm.trans (freeBlocks_setFreeList st k _ hk)
  have he : ((a :: st.free k).map fun x => (x, k)) ++ freeBlocksExcept st k
      = (a, k) :: (((st.free k).map fun x => (x, k)) ++ freeBlocksExcept st k) := by
    simp
  rw [he]
  exact List.Perm.cons _ (List.Perm.symm (freeBlocks_extract st k hk))

/-- Inside the invariant, `size` recovers exactly the class of every carved
block. -/
theorem size_eq_of_inv {Mv Rv : Nat} {st : BDState} (hInv : Inv Mv Rv st)
    {x : Nat × Nat} (hx : x ∈ blocks st) : size st x.1 = x.2 := by
  obtain ⟨hpw, hgeo, hpar, hvirt⟩ := hInv
  obtain ⟨hdvd, hM, hR, hns⟩ := hgeo x hx
  apply size_eq_of_hit hns (hpar x hx)
  intro j hj
  have hd : BLK_SIZE (j + 1) ∣ x.1 := dvd_trans (BLK_dvd (by omega)) hdvd
  have hcan : blk_index (j + 1) x.1 * BLK_SIZE (j + 1) = x.1 := div_mul_of_dvd hd
  apply hvirt x hx (j + 1) (blk_index (j + 1) x.1) (by omega) (by omega)
  · omega
  · have hble : BLK_SIZE (j + 1) ≤ BLK_SIZE x.2 := BLK_mono (by omega)
    have : (blk_index (j + 1) x.1 + 1) * BLK_SIZE (j + 1)
        = blk_index (j + 1) x.1 * BLK_SIZE (j + 1) + BLK_SIZE (j + 1) := by ring
    omega

/-- `Inv` transports along a permutation of `blocks` when the split bitmaps
and the class count agree. -/
theorem inv_of_perm {Mv Rv : Nat} {st st' : BDState} (hInv : Inv Mv Rv st)
    (hperm : List.Perm (blocks st) (blocks st'))
    (hsplit : st'.split = st.split) (hns : st'.nsizes = st.nsizes) :
    Inv Mv Rv st' := by
  obtain ⟨hpw, hgeo, hpar, hvirt⟩ := hInv
  refine ⟨(hperm.pairwise_iff fun h => BlkDisj_symm h).mp hpw, ?_, ?_, ?_⟩
  · intro x hx
    have := hgeo x (hperm.mem_iff.mpr hx)
    rw [hns]
    exact this
  · intro x hx
    rw [hsplit]
    exact hpar x (hperm.mem_iff.mpr hx)
  · intro x hx j i h1 h2 h3 h4
    rw [hsplit]
    exact hvirt x (hperm.mem_iff.mpr hx) j i h1 h2 h3 h4

/-- `bd_free` on a live offset preserves the invariant: the block simply
moves from the ghost live list to the free list of its own class. -/
theorem inv_free {Mv Rv : Nat} {st : BDState} {p c : Nat} (hInv : Inv Mv Rv st)
    (hlive : (p, c) ∈ st.live) : Inv Mv Rv (bd_free st p) := by
  have hxblocks : ((p, c) : Nat × Nat) ∈ blocks st :=
    List.mem_append.mpr (Or.inr hlive)
  have hsize : size st p = c := size_eq_of_inv hInv hxblocks
  have hcns : c < st.nsizes := (hInv.2.1 _ hxblocks).2.2.2
  have huniq : ∀ y ∈ st.live, (fun x => x.1 == p) y = true → y = (p, c) := by
    intro y hy hq
    have hy1 : y.1 = p := by simpa using hq
    by_contra hne
    have hyb : y ∈ blocks st := List.mem_append.mpr (Or.inr hy)
    have hd := List.Pairwise.forall BlkDisj_symm hInv.1 hyb hxblocks hne
    rcases hd with h | h
    · have := BLK_pos y.2; omega
    · have := BLK_pos c; simp only at h; omega
  have hlp : List.Perm st.live ((p, c) :: st.live.eraseP fun x => x.1 == p) :=
    perm_cons_eraseP _ st.live (p, c) hlive (by simp) huniq
  rw [bd_free_eq]
  simp only [hsize]
  set stA := if c < st.nsizes - 1 then setAlloc st c (blk_index c p / 2) else st
    with hstA
  have hAfree : stA.free = st.free := by rw [hstA]; split_ifs <;> rfl
  have hAsplit : stA.split = st.split := by rw [hstA]; split_ifs <;> rfl
  have hAns : stA.nsizes = st.nsizes := by rw [hstA]; split_ifs <;> rfl
  have hAlive : stA.live = st.live := by rw [hstA]; split_ifs <;> rfl
  have hfbA : freeBlocks stA = freeBlocks st := by
    unfold freeBlocks
    rw [hAns, hAfree]
  have hpushPerm : List.Perm (freeBlocks (pushFree stA c p)) ((p, c) :: freeBlocks st) := by
    have := freeBlocks_pushFree stA c p (by rw [hAns]; exact hcns)
    rw [hfbA] at this
    exact this
  apply inv_of_perm hInv
  · show List.Perm (blocks st) _
    unfold blocks
    have hlive'' :
        ({ pushFree stA c p with
            live := List.eraseP (fun x => x.1 == p) (pushFree stA c p).live }).live
          = st.live.eraseP fun x => x.1 == p := by
      simp only [pushFree_live, hAlive]
    have hfree'' :
        freeBlocks { pushFree stA c p with
            live := List.eraseP (fun x => x.1 == p) (pushFree stA c p).live }
          = freeBlocks (pushFree stA c p) := by
      unfold freeBlocks
      rfl
    rw [hlive'', hfree'']
    have h1 : List.Perm (freeBlocks st ++ st.live)
        (freeBlocks st ++ ((p, c) :: st.live.eraseP fun x => x.1 == p)) :=
      List.Perm.append_left _ hlp
    have h2 : List.Perm (freeBlocks st ++ ((p, c) :: st.live.eraseP fun x => x.1 == p))
        ((p, c) :: (freeBlocks st ++ st.live.eraseP fun x => x.1 == p)) :=
      List.perm_middle
    have h3 : List.Perm
        (freeBlocks (pushFree stA c p) ++ st.live.eraseP fun x => x.1 == p)
        ((p, c) :: (freeBlocks st ++ st.live.eraseP fun x => x.1 == p)) := by
      have h4 := List.Perm.append hpushPerm
        (List.Perm.refl (st.live.eraseP fun x => x.1 == p))
      rw [List.cons_append] at h4
      exact h4
    exact (h1.trans h2).trans h3.symm
  · show ({ pushFree stA c p with
        live := List.eraseP (fun x => x.1 == p) (pushFree stA c p).live }).split = st.split
    simp only [pushFree_split, hAsplit]
  · show ({ pushFree stA c p with
        live := List.eraseP (fun x => x.1 == p) (pushFree stA c p).live }).nsizes = st.nsizes
    simp only [pushFree_nsizes, hAns]

theorem eq_false_of_ne_true {bb : Bool} (h : ¬ bb = true) : bb = false := by
  cases bb
  · rfl
  · exact absurd rfl h

theorem splitPieces_pairwise (p : Nat) : ∀ (c k : Nat), c ≤ k →
    List.Pairwise BlkDisj (splitPieces p k c) := by
  intro c
  induction c with
  | zero => intro k _; exact List.Pairwise.nil
  | succ c ih =>
    intro k hck
    rw [splitPieces]
    refine List.Pairwise.cons ?_ (ih (k - 1) (by omega))
    intro y hy
    obtain ⟨j, hj1, hj2, he⟩ := (splitPieces_mem p c (k - 1) (by omega) y).mp hy
    subst he
    right
    have h1 : BLK_SIZE (j + 1) = 2 * BLK_SIZE j := BLK_succ j
    have h2 : BLK_SIZE (j + 1) ≤ BLK_SIZE (k - 1) := BLK_mono (by omega)
    simp only
    omega

/-- `bd_malloc` preserves the invariant: the popped block is replaced by the
granted block and the pushed-back upper halves, which tile it exactly. -/
theorem inv_malloc (Mv Rv : Nat) (st : BDState) (n : Nat) (hInv : Inv Mv Rv st) :
    Inv Mv Rv (bd_malloc st n).2 := by
  rcases hm : bd_malloc st n with ⟨o, st'⟩
  cases o with
  | none =>
    have h1 : (bd_malloc st n).1 = none := by rw [hm]
    have h2 := bd_malloc_none_state st n h1
    rw [hm] at h2
    simp only at h2
    show Inv Mv Rv st'
    rw [h2]
    exact hInv
  | some p =>
    obtain ⟨k, rest, hfind, hfree, hst'⟩ := bd_malloc_some_ex hm
    show Inv Mv Rv st'
    subst hst'
    obtain ⟨hfkk, hkns, -⟩ := findk_some st (firstk n) k hfind
    have hckk : k - firstk n ≤ k := Nat.sub_le _ _
    have hx0mem : ((p, k) : Nat × Nat) ∈ blocks st := by
      have := blocks_pop st k p rest hkns hfree
      exact this.mem_iff.mpr (List.mem_cons_self _ _)
    obtain ⟨hdvd0, hM0, hR0, -⟩ := hInv.2.1 (p, k) hx0mem
    have hpar0 := hInv.2.2.1 (p, k) hx0mem
    have hvirt0 := hInv.2.2.2 (p, k) hx0mem
    simp only at hdvd0 hM0 hR0 hpar0 hvirt0
    have hF1 := blocks_pop st k p rest hkns hfree
    have hpw' : List.Pairwise BlkDisj ((p, k) :: blocks (setFreeList st k rest)) :=
      (hF1.pairwise_iff fun h => BlkDisj_symm h).mp hInv.1
    have hx0B : ∀ y ∈ blocks (setFreeList st k rest), BlkDisj (p, k) y :=
      (List.pairwise_cons.mp hpw').1
    have hpwB : List.Pairwise BlkDisj (blocks (setFreeList st k rest)) :=
      (List.pairwise_cons.mp hpw').2
    have hyB : ∀ y ∈ blocks (setFreeList st k rest), y ∈ blocks st :=
      fun y hy => hF1.mem_iff.mpr (List.mem_cons_of_mem _ hy)
    -- the split-bitmap characterization of the final state
    have hns2 : (flipAlloc (setFreeList st k rest) k (blk_index k p / 2)).nsizes
        = st.nsizes := rfl
    have hfkk' : k - (k - firstk n) = firstk n := by omega
    have hsplitchar : ∀ j i,
        bit_isset ((bd_splitAux p (k - firstk n) k
            (flipAlloc (setFreeList st k rest) k (blk_index k p / 2))).split j) i = true ↔
          (bit_isset (st.split j) i = true ∨
            (firstk n < j ∧ j ≤ k ∧ i = blk_index j p)) := by
      intro j i
      have h1 := splitAux_split p (k - firstk n) k
        (flipAlloc (setFreeList st k rest) k (blk_index k p / 2)) hckk j i
      rw [hfkk'] at h1
      exact h1
    -- the blocks permutation for the final state
    have hP3 := blocks_splitAux p (k - firstk n) k
      (flipAlloc (setFreeList st k rest) k (blk_index k p / 2)) hckk
      (by rw [hns2]; omega)
    rw [blocks_flipAlloc] at hP3
    have hPfin : List.Perm
        (blocks { bd_splitAux p (k - firstk n) k
            (flipAlloc (setFreeList st k rest) k (blk_index k p / 2)) with
          live := (p, firstk n) ::
            (bd_splitAux p (k - firstk n) k
              (flipAlloc (setFreeList st k rest) k (blk_index k p / 2))).live })
        ((p, firstk n) :: (splitPieces p k (k - firstk n) ++
          blocks (setFreeList st k rest))) :=
      (blocks_liveCons _ _).trans (List.Perm.cons _ hP3)
    -- facts about the new elements
    have hpiece : ∀ x ∈ splitPieces p k (k - firstk n),
        ∃ j, firstk n ≤ j ∧ j < k ∧ x = (p + BLK_SIZE j, j) := by
      intro x hx
      obtain ⟨j, h1, h2, he⟩ := (splitPieces_mem p (k - firstk n) k hckk x).mp hx
      exact ⟨j, by omega, h2, he⟩
    have hNfacts : ∀ x ∈ (p, firstk n) :: splitPieces p k (k - firstk n),
        p ≤ x.1 ∧ x.1 + BLK_SIZE x.2 ≤ p + BLK_SIZE k ∧
          BLK_SIZE x.2 ∣ x.1 ∧ x.2 ≤ k := by
      intro x hx
      rcases List.mem_cons.mp hx with he | hmem
      · subst he
        exact ⟨le_rfl, by have := BLK_mono hfkk; simp; omega,
          dvd_trans (BLK_dvd hfkk) hdvd0, hfkk⟩
      · obtain ⟨j, hj1, hj2, he⟩ := hpiece x hmem
        subst he
        have hdj : BLK_SIZE j ∣ p := dvd_trans (BLK_dvd (by omega)) hdvd0
        have h1 : BLK_SIZE (j + 1) = 2 * BLK_SIZE j := BLK_succ j
        have h2 : BLK_SIZE (j + 1) ≤ BLK_SIZE k := BLK_mono (by omega)
        exact ⟨by simp, by simp; omega, dvd_add hdj dvd_rfl, by omega⟩
    -- the target pairwise structure
    have hpwN : List.Pairwise BlkDisj
        ((p, firstk n) :: splitPieces p k (k - firstk n)) := by
      refine List.Pairwise.cons ?_ (splitPieces_pairwise p (k - firstk n) k hckk)
      intro y hy
      obtain ⟨j, hj1, hj2, he⟩ := hpiece y hy
      subst he
      left
      have := BLK_mono hj1
      simp
      omega
    have hpwTarget : List.Pairwise BlkDisj
        (((p, firstk n) :: splitPieces p k (k - firstk n)) ++
          blocks (setFreeList st k rest)) := by
      rw [List.pairwise_append]
      refine ⟨hpwN, hpwB, ?_⟩
      intro x hx y hy
      obtain ⟨hlo, hhi, -, -⟩ := hNfacts x hx
      exact BlkDisj_of_sub hlo hhi (hx0B y hy)
    refine ⟨?_, ?_, ?_, ?_⟩
    · -- pairwise
      apply (hPfin.pairwise_iff fun h => BlkDisj_symm h).mpr
      rw [← List.cons_append]
      exact hpwTarget
    · -- geometry
      intro x hx
      have hx' := hPfin.mem_iff.mp hx
      rw [← List.cons_append, List.mem_append] at hx'
      have hnsfin : (bd_splitAux p (k - firstk n) k
          (flipAlloc (setFreeList st k rest) k (blk_index k p / 2))).nsizes
            = st.nsizes := by
        rw [splitAux_nsizes]
        exact hns2
      rcases hx' with hN | hB
      · obtain ⟨hlo, hhi, hdvd, hle⟩ := hNfacts x hN
        refine ⟨hdvd, by omega, by omega, ?_⟩
        show x.2 < _
        simp only [hnsfin]
        omega
      · obtain ⟨hdvd, hM, hR, hlt⟩ := hInv.2.1 x (hyB x hB)
        refine ⟨hdvd, hM, hR, ?_⟩
        show x.2 < _
        simp only [hnsfin]
        exact hlt
    · -- parent split bit
      intro x hx
      have hx' := hPfin.mem_iff.mp hx
      rw [← List.cons_append, List.mem_append] at hx'
      show bit_isset ((bd_splitAux p (k - firstk n) k
          (flipAlloc (setFreeList st k rest) k (blk_index k p / 2))).split (x.2 + 1))
          (blk_index (x.2 + 1) x.1) = true
      rw [hsplitchar]
      rcases hx' with hN | hB
      · rcases List.mem_cons.mp hN with he | hmem
        · subst he
          by_cases hfk : firstk n = k
          · left
            simp only
            rw [hfk]
            exact hpar0
          · right
            exact ⟨by omega, by omega, rfl⟩
        · obtain ⟨j, hj1, hj2, he⟩ := hpiece x hmem
          subst he
          right
          refine ⟨by omega, by omega, ?_⟩
          show blk_index (j + 1) (p + BLK_SIZE j) = blk_index (j + 1) p
          have hd : BLK_SIZE (j + 1) ∣ p :=
            dvd_trans (BLK_dvd (by omega : j + 1 ≤ k)) hdvd0
          have hlt : BLK_SIZE j < BLK_SIZE (j + 1) := BLK_strict_mono (Nat.lt_succ_self j)
          unfold blk_index
          exact add_lt_div_eq (BLK_pos _) hd hlt
      · left
        exact hInv.2.2.1 x (hyB x hB)
    · -- interior virgin
      intro x hx j i h1j hjx hlo hhi
      have hx' := hPfin.mem_iff.mp hx
      rw [← List.cons_append, List.mem_append] at hx'
      show bit_isset ((bd_splitAux p (k - firstk n) k
          (flipAlloc (setFreeList st k rest) k (blk_index k p / 2))).split j) i = false
      apply eq_false_of_ne_true
      intro hset
      rcases (hsplitchar j i).mp hset with hold | ⟨hnew1, hnew2, hnew3⟩
      · -- an old split bit strictly inside x: contradicts the old invariant
        rcases hx' with hN | hB
        · obtain ⟨hxlo, hxhi, -, hxle⟩ := hNfacts x hN
          have := hvirt0 j i h1j (by omega) (by omega) (by omega)
          rw [this] at hold
          cases hold
        · have := hInv.2.2.2 x (hyB x hB) j i h1j hjx hlo hhi
          rw [this] at hold
          cases hold
      · -- a newly set split bit strictly inside x
        subst hnew3
        have hdj : BLK_SIZE j ∣ p := dvd_trans (BLK_dvd hnew2) hdvd0
        have hcan : blk_index j p * BLK_SIZE j = p := div_mul_of_dvd hdj
        have hq : (blk_index j p + 1) * BLK_SIZE j
            = blk_index j p * BLK_SIZE j + BLK_SIZE j := by ring
        have hBj := BLK_pos j
        rcases hx' with hN | hB
        · rcases List.mem_cons.mp hN with he | hmem
          · subst he
            simp only at hjx
            omega
          · obtain ⟨j', hj1, hj2, he⟩ := hpiece x hmem
            subst he
            simp only at hjx hlo hhi
            have := BLK_pos j'
            omega
        · have hdisj := hx0B x hB
          have hBk := BLK_pos k
          rcases hdisj with hd | hd
          · simp only at hd hlo hhi
            omega
          · simp only at hd hlo hhi
            omega

/-! ### Step preservation and reachability -/

/-- Any allocator call (`bd_malloc`, or `bd_free` of a live offset) preserves
the invariant. -/
theorem inv_step {Mv Rv : Nat} {st st' : BDState} (hInv : Inv Mv Rv st)
    (hs : Step st st') : Inv Mv Rv st' := by
  cases hs with
  | malloc n s => exact inv_malloc Mv Rv _ n hInv
  | free p s h =>
    obtain ⟨c, hc⟩ := h
    exact inv_free hInv hc

/-! ### Frontier arithmetic for the two `bd_mark` reservations -/

theorem mult_unique {B m x y : Nat} (hx : B ∣ x) (hy : B ∣ y)
    (hx1 : m ≤ x) (hx2 : x < m + B) (hy1 : m ≤ y) (hy2 : y < m + B) : x = y := by
  obtain ⟨a, ha⟩ := hx
  obtain ⟨c, hc⟩ := hy
  subst ha
  subst hc
  rcases Nat.lt_trichotomy a c with h | h | h
  · have h1 : B * (a + 1) ≤ B * c := Nat.mul_le_mul_left B h
    have h2 : B * (a + 1) = B * a + B := by ring
    omega
  · rw [h]
  · have h1 : B * (c + 1) ≤ B * a := Nat.mul_le_mul_left B h
    have h2 : B * (c + 1) = B * c + B := by ring
    omega

theorem mult_unique_le {B r x y : Nat} (hx : B ∣ x) (hy : B ∣ y)
    (hx1 : x ≤ r) (hx2 : r < x + B) (hy1 : y ≤ r) (hy2 : r < y + B) : x = y := by
  obtain ⟨a, ha⟩ := hx
  obtain ⟨c, hc⟩ := hy
  subst ha
  subst hc
  rcases Nat.lt_trichotomy a c with h | h | h
  · have h1 : B * (a + 1) ≤ B * c := Nat.mul_le_mul_left B h
    have h2 : B * (a + 1) = B * a + B := by ring
    omega
  · rw [h]
  · have h1 : B * (c + 1) ≤ B * a := Nat.mul_le_mul_left B h
    have h2 : B * (c + 1) = B * c + B := by ring
    omega

theorem eFr_spec (m k : Nat) :
    m ≤ eFr m k ∧ eFr m k < m + BLK_SIZE k ∧ BLK_SIZE k ∣ eFr m k := by
  refine ⟨?_, ?_, dvd_mul_left _ _⟩ <;>
  · unfold eFr blk_index_next
    have hB := BLK_pos k
    have hdm := Nat.div_add_mod m (BLK_SIZE k)
    have hlt := Nat.mod_lt m hB
    have h1 : (m / BLK_SIZE k + 1) * BLK_SIZE k
        = BLK_SIZE k * (m / BLK_SIZE k) + BLK_SIZE k := by ring
    have h3 : (m / BLK_SIZE k + 0) * BLK_SIZE k
        = BLK_SIZE k * (m / BLK_SIZE k) := by ring
    split_ifs with h
    · omega
    · push_neg at h
      omega

theorem fFr_spec (r k : Nat) :
    fFr r k ≤ r ∧ r < fFr r k + BLK_SIZE k ∧ BLK_SIZE k ∣ fFr r k := by
  refine ⟨?_, ?_, dvd_mul_left _ _⟩ <;>
  · unfold fFr
    have hB := BLK_pos k
    have hdm := Nat.div_add_mod r (BLK_SIZE k)
    have hlt := Nat.mod_lt r hB
    have h2 : r / BLK_SIZE k * BLK_SIZE k = BLK_SIZE k * (r / BLK_SIZE k) := by ring
    omega

/-- Climbing one class moves the rounded-up frontier up by `BLK_SIZE k`
exactly when the class-`k` frontier index is odd. -/
theorem eFr_succ (m k : Nat) :
    eFr m (k + 1)
      = eFr m k + (if blk_index_next k m % 2 = 1 then BLK_SIZE k else 0) := by
  have hB := BLK_pos k
  have hBs := BLK_succ k
  obtain ⟨h1, h2, h3⟩ := eFr_spec m k
  obtain ⟨h1', h2', h3'⟩ := eFr_spec m (k + 1)
  have hq : eFr m k = blk_index_next k m * BLK_SIZE k := rfl
  by_cases ho : blk_index_next k m % 2 = 1
  · rw [if_pos ho]
    have he : blk_index_next k m + 1 = 2 * ((blk_index_next k m + 1) / 2) := by omega
    have hdvdR : BLK_SIZE (k + 1) ∣ eFr m k + BLK_SIZE k := by
      refine ⟨(blk_index_next k m + 1) / 2, ?_⟩
      rw [hq, hBs]
      have hr : blk_index_next k m * BLK_SIZE k + BLK_SIZE k
          = (blk_index_next k m + 1) * BLK_SIZE k := by ring
      rw [hr]
      calc (blk_index_next k m + 1) * BLK_SIZE k
          = 2 * ((blk_index_next k m + 1) / 2) * BLK_SIZE k := by rw [← he]
        _ = 2 * BLK_SIZE k * ((blk_index_next k m + 1) / 2) := by ring
    exact mult_unique h3' hdvdR h1' h2' (by omega) (by omega)
  · rw [if_neg ho]
    have he : blk_index_next k m = 2 * (blk_index_next k m / 2) := by omega
    have hdvdR : BLK_SIZE (k + 1) ∣ eFr m k + 0 := by
      refine ⟨blk_index_next k m / 2, ?_⟩
      rw [Nat.add_zero, hq, hBs]
      calc blk_index_next k m * BLK_SIZE k
          = 2 * (blk_index_next k m / 2) * BLK_SIZE k := by rw [← he]
        _ = 2 * BLK_SIZE k * (blk_index_next k m / 2) := by ring
    exact mult_unique h3' hdvdR h1' h2' (by omega) (by omega)

/-- Climbing one class moves the rounded-down frontier down by `BLK_SIZE k`
exactly when the class-`k` frontier index is odd. -/
theorem fFr_succ (r k : Nat) :
    fFr r (k + 1)
      = fFr r k - (if blk_index k r % 2 = 1 then BLK_SIZE k else 0) := by
  have hB := BLK_pos k
  have hBs := BLK_succ k
  obtain ⟨h1, h2, h3⟩ := fFr_spec r k
  obtain ⟨h1', h2', h3'⟩ := fFr_spec r (k + 1)
  have hq : fFr r k = blk_index k r * BLK_SIZE k := rfl
  by_cases ho : blk_index k r % 2 = 1
  · rw [if_pos ho]
    have hp1 : 1 ≤ blk_index k r := by omega
    have he : blk_index k r - 1 = 2 * ((blk_index k r - 1) / 2) := by omega
    have h5 : blk_index k r - 1 + 1 = blk_index k r := by omega
    have hstep : (blk_index k r - 1) * BLK_SIZE k + BLK_SIZE k
        = blk_index k r * BLK_SIZE k := by
      calc (blk_index k r - 1) * BLK_SIZE k + BLK_SIZE k
          = (blk_index k r - 1 + 1) * BLK_SIZE k := by ring
        _ = blk_index k r * BLK_SIZE k := by rw [h5]
    have hsub : fFr r k - BLK_SIZE k = (blk_index k r - 1) * BLK_SIZE k := by
      omega
    have hdvdR : BLK_SIZE (k + 1) ∣ fFr r k - BLK_SIZE k := by
      rw [hsub, hBs]
      refine ⟨(blk_index k r - 1) / 2, ?_⟩
      calc (blk_index k r - 1) * BLK_SIZE k
          = 2 * ((blk_index k r - 1) / 2) * BLK_SIZE k := by rw [← he]
        _ = 2 * BLK_SIZE k * ((blk_index k r - 1) / 2) := by ring
    have hge : BLK_SIZE k ≤ fFr r k := by
      have h6 : 1 * BLK_SIZE k ≤ blk_index k r * BLK_SIZE k :=
        Nat.mul_le_mul_right _ hp1
      omega
    exact mult_unique_le h3' hdvdR h1' h2' (by omega) (by omega)
  · rw [if_neg ho]
    have he : blk_index k r = 2 * (blk_index k r / 2) := by omega
    have hdvdR : BLK_SIZE (k + 1) ∣ fFr r k - 0 := by
      rw [Nat.sub_zero, hq, hBs]
      refine ⟨blk_index k r / 2, ?_⟩
      calc blk_index k r * BLK_SIZE k
          = 2 * (blk_index k r / 2) * BLK_SIZE k := by rw [← he]
        _ = 2 * BLK_SIZE k * (blk_index k r / 2) := by ring
    exact mult_unique_le h3' hdvdR h1' h2' (by omega) (by omega)

theorem eFr_zero {m : Nat} (h : m % LEAF_SIZE = 0) : eFr m 0 = m := by
  have hd : BLK_SIZE 0 ∣ m := by rw [BLK_zero]; exact Nat.dvd_of_mod_eq_zero h
  have hz : m % BLK_SIZE 0 = 0 := mod_eq_zero_of_dvd hd
  unfold eFr blk_index_next
  rw [if_neg (not_not_intro hz), Nat.add_zero]
  exact div_mul_of_dvd hd

theorem fFr_zero {r : Nat} (h : r % LEAF_SIZE = 0) : fFr r 0 = r := by
  have hd : BLK_SIZE 0 ∣ r := by rw [BLK_zero]; exact Nat.dvd_of_mod_eq_zero h
  unfold fFr
  exact div_mul_of_dvd hd

theorem eFr_mono (m : Nat) : ∀ {t t' : Nat}, t ≤ t' → eFr m t ≤ eFr m t' := by
  intro t t' h
  induction t' with
  | zero =>
    have ht : t = 0 := by omega
    subst ht
    exact le_rfl
  | succ t' ih =>
    rcases Nat.eq_or_lt_of_le h with he | hlt
    · rw [he]
    · have h1 := ih (by omega)
      rw [eFr_succ]
      split_ifs <;> omega

theorem fFr_anti (r : Nat) : ∀ {t t' : Nat}, t ≤ t' → fFr r t' ≤ fFr r t := by
  intro t t' h
  induction t' with
  | zero =>
    have ht : t = 0 := by omega
    subst ht
    exact le_rfl
  | succ t' ih =>
    rcases Nat.eq_or_lt_of_le h with he | hlt
    · rw [he]
    · have h1 := ih (by omega)
      rw [fFr_succ]
      split_ifs <;> omega

theorem eFr_telescope (m : Nat) (h : m % LEAF_SIZE = 0) :
    ∀ t, eFr m t = m + leftSum m t := by
  intro t
  induction t with
  | zero =>
    rw [eFr_zero h]
    simp [leftSum]
  | succ t ih =>
    have hs : leftSum m (t + 1)
        = leftSum m t + (if blk_index_next t m % 2 = 1 then BLK_SIZE t else 0) := by
      unfold leftSum
      rw [List.range_succ, List.map_append, List.sum_append]
      simp
    rw [eFr_succ, ih, hs]
    omega

theorem fFr_telescope (r : Nat) (h : r % LEAF_SIZE = 0) :
    ∀ t, fFr r t + rightSum r t = r := by
  intro t
  induction t with
  | zero =>
    rw [fFr_zero h]
    simp [rightSum]
  | succ t ih =>
    have hs : rightSum r (t + 1)
        = rightSum r t + (if blk_index t r % 2 = 1 then BLK_SIZE t else 0) := by
      unfold rightSum
      rw [List.range_succ, List.map_append, List.sum_append]
      simp
    rw [fFr_succ, hs]
    by_cases ho : blk_index t r % 2 = 1
    · rw [if_pos ho]
      have hp1 : 1 ≤ blk_index t r := by omega
      have hq : blk_index t r * BLK_SIZE t = fFr r t := rfl
      have h6 : 1 * BLK_SIZE t ≤ blk_index t r * BLK_SIZE t :=
        Nat.mul_le_mul_right _ hp1
      omega
    · rw [if_neg ho]
      omega

/-! ### Summation helpers for the accounting argument -/

theorem sum_map_add (f g : Nat → Nat) :
    ∀ l : List Nat,
      (l.map fun j => f j + g j).sum = (l.map f).sum + (l.map g).sum := by
  intro l
  induction l with
  | nil => simp
  | cons x xs ih =>
    simp only [List.map_cons, List.sum_cons]
    omega

theorem sum_range_if_restrict (t : Nat) (f : Nat → Nat) (C : Nat → Prop)
    [DecidablePred C] : ∀ n, t ≤ n →
      ((List.range n).map fun j => if j < t ∧ C j then f j else 0).sum
        = ((List.range t).map fun j => if C j then f j else 0).sum := by
  intro n
  induction n with
  | zero =>
    intro h
    have ht : t = 0 := by omega
    subst ht
    rfl
  | succ n ih =>
    intro h
    rcases Nat.eq_or_lt_of_le h with he | hlt
    · subst he
      apply congrArg List.sum
      apply List.map_congr_left
      intro a ha
      have haN : a < n + 1 := List.mem_range.mp ha
      by_cases hc : C a
      · rw [if_pos ⟨haN, hc⟩, if_pos hc]
      · rw [if_neg (fun hh => hc hh.2), if_neg hc]
    · rw [List.range_succ, List.map_append, List.sum_append, ih (by omega)]
      have h0 : ((([n] : List Nat)).map
          fun j => if j < t ∧ C j then f j else 0).sum = 0 := by
        simp only [List.map_cons, List.map_nil, List.sum_cons, List.sum_nil]
        rw [if_neg (fun hh => absurd hh.1 (by omega))]
        omega
      omega

theorem pairwise_flatMap_range {α : Type} (R : α → α → Prop) (f : Nat → List α)
    (n : Nat) (hin : ∀ j, j < n → (f j).Pairwise R)
    (hcross : ∀ j j', j < j' → j' < n → ∀ x ∈ f j, ∀ y ∈ f j', R x y) :
    ((List.range n).flatMap f).Pairwise R := by
  induction n with
  | zero => exact List.Pairwise.nil
  | succ n ih =>
    rw [List.range_succ, List.flatMap_append]
    apply List.pairwise_append.mpr
    refine ⟨ih (fun j hj => hin j (by omega))
      (fun j j' h1 h2 => hcross j j' h1 (by omega)), ?_, ?_⟩
    · simp only [List.flatMap_cons, List.flatMap_nil, List.append_nil]
      exact hin n (by omega)
    · intro x hx y hy
      rw [List.mem_flatMap] at hx
      obtain ⟨j, hj, hxj⟩ := hx
      have hjn : j < n := List.mem_range.mp hj
      have hy' : y ∈ f n := by simpa using hy
      exact hcross j n hjn (by omega) x hxj y hy'

/-! ### The `bd_mark` push conditions, spelt out -/

theorem markPushCond_false (a b k : Nat) :
    markPushCond a b false k ↔ blk_index k a % 2 = 1 := by
  unfold markPushCond
  constructor
  · rintro (⟨hf, -⟩ | ⟨-, h2⟩)
    · cases hf
    · exact h2
  · intro h2
    exact Or.inr ⟨rfl, h2⟩

theorem markPushCond_true (a b k : Nat) :
    markPushCond a b true k ↔ blk_index_next k b % 2 = 1 := by
  unfold markPushCond
  constructor
  · rintro (⟨-, h2⟩ | ⟨hf, -⟩)
    · exact h2
    · cases hf
  · intro h2
    exact Or.inl ⟨rfl, h2⟩

theorem markPushAddr_false (a b k : Nat) :
    markPushAddr a b false k = (blk_index k a - 1) * BLK_SIZE k := by
  unfold markPushAddr addr
  rw [if_neg Bool.false_ne_true]

theorem markPushAddr_true (a b k : Nat) :
    markPushAddr a b true k = blk_index_next k b * BLK_SIZE k := by
  unfold markPushAddr addr
  rw [if_pos rfl]

/-! ### Alignment and bounds of the `bd_init` layout -/

theorem initM_mod (b e : Nat) : initM b e % LEAF_SIZE = 0 :=
  mod_eq_zero_of_dvd (ROUNDUP_dvd _ _)

theorem initU_dvd16 (b e : Nat) : LEAF_SIZE ∣ initU b e := by
  unfold initU
  split_ifs with hpos
  · exact ROUNDUP_dvd _ _
  · have hz : initHeap b e - (e - ROUNDUP b LEAF_SIZE) = 0 := by omega
    rw [hz]
    exact dvd_zero _

theorem initR_mod (b e : Nat) : initR b e % LEAF_SIZE = 0 :=
  mod_eq_zero_of_dvd (Nat.dvd_sub' (LEAF_dvd_BLK _) (initU_dvd16 b e))

theorem initU_le_heap (b e : Nat) : initU b e ≤ initHeap b e := by
  unfold initU
  split_ifs with hpos
  · exact ROUNDUP_le _ _ _ (by decide) (LEAF_dvd_BLK _) (by omega)
  · omega

/-- When the accounting check of `bd_init` passes, the two reservations'
frontiers meet at the top bucket class `nsizes - 2`. -/
theorem init_frontier_meet {b e : Nat} {st : BDState} {m : InitMeta}
    (h : bd_init b e = some (st, m)) :
    eFr (initM b e) (initNs b e - 2) = fFr (initR b e) (initNs b e - 2) := by
  obtain ⟨-, -, hns, -, hfree, -, hInt, hbytes⟩ := bd_init_some h
  have hflb : freeListBytes st
      = ((List.range (initNs b e)).map
          fun j => (st.free j).length * BLK_SIZE j).sum := by
    unfold freeListBytes
    rw [hns, foldl_add_eq_sum (fun j => (st.free j).length * BLK_SIZE j)]
    omega
  have hpt : ∀ j ∈ List.range (initNs b e),
      (st.free j).length * BLK_SIZE j
        = (if j < initNs b e - 2 ∧ blk_index j (initR b e) % 2 = 1 then
            BLK_SIZE j else 0)
          + (if j < initNs b e - 2 ∧ blk_index_next j (initM b e) % 2 = 1 then
            BLK_SIZE j else 0) := by
    intro j hj
    rw [hfree j]
    have hrc : (j < initNs b e - 2 ∧
          markPushCond (initR b e) (initHeap b e) false j)
        ↔ (j < initNs b e - 2 ∧ blk_index j (initR b e) % 2 = 1) :=
      and_congr_right fun _ => markPushCond_false _ _ _
    have hlc : (j < initNs b e - 2 ∧ markPushCond 0 (initM b e) true j)
        ↔ (j < initNs b e - 2 ∧ blk_index_next j (initM b e) % 2 = 1) :=
      and_congr_right fun _ => markPushCond_true _ _ _
    by_cases hA : j < initNs b e - 2 ∧
        markPushCond (initR b e) (initHeap b e) false j
    · rw [if_pos hA, if_pos (hrc.mp hA)]
      by_cases hB : j < initNs b e - 2 ∧ markPushCond 0 (initM b e) true j
      · rw [if_pos hB, if_pos (hlc.mp hB)]
        simp only [List.cons_append, List.nil_append, List.length_cons,
          List.length_nil]
        ring
      · rw [if_neg hB, if_neg (fun hh => hB (hlc.mpr hh))]
        simp only [List.append_nil, List.length_cons, List.length_nil]
        ring
    · rw [if_neg hA, if_neg (fun hh => hA (hrc.mpr hh))]
      by_cases hB : j < initNs b e - 2 ∧ markPushCond 0 (initM b e) true j
      · rw [if_pos hB, if_pos (hlc.mp hB)]
        simp only [List.nil_append, List.length_cons, List.length_nil]
        ring
      · rw [if_neg hB, if_neg (fun hh => hB (hlc.mpr hh))]
        simp only [List.append_nil, List.length_nil]
        ring
  have hfl2 : freeListBytes st
      = rightSum (initR b e) (initNs b e - 2)
        + leftSum (initM b e) (initNs b e - 2) := by
    rw [hflb, List.map_congr_left hpt,
      sum_map_add
        (fun j => if j < initNs b e - 2 ∧ blk_index j (initR b e) % 2 = 1 then
          BLK_SIZE j else 0)
        (fun j => if j < initNs b e - 2 ∧
            blk_index_next j (initM b e) % 2 = 1 then BLK_SIZE j else 0),
      sum_range_if_restrict (initNs b e - 2) BLK_SIZE
        (fun j => blk_index j (initR b e) % 2 = 1) (initNs b e) (by omega),
      sum_range_if_restrict (initNs b e - 2) BLK_SIZE
        (fun j => blk_index_next j (initM b e) % 2 = 1) (initNs b e) (by omega)]
    rfl
  have htel1 : eFr (initM b e) (initNs b e - 2)
      = initM b e + leftSum (initM b e) (initNs b e - 2) :=
    eFr_telescope _ (initM_mod b e) _
  have htel2 : fFr (initR b e) (initNs b e - 2)
      + rightSum (initR b e) (initNs b e - 2) = initR b e :=
    fFr_telescope _ (initR_mod b e) _
  have hU := initU_le_heap b e
  have hRdef : initR b e = initHeap b e - initU b e := rfl
  omega

theorem initM_le_initR {b e : Nat} {st : BDState} {m : InitMeta}
    (h : bd_init b e = some (st, m)) : initM b e ≤ initR b e := by
  have h1 := (eFr_spec (initM b e) (initNs b e - 2)).1
  have h2 := (fFr_spec (initR b e) (initNs b e - 2)).1
  have h3 := init_frontier_meet h
  omega

/-- A completed `bd_init` establishes the allocator invariant for the usable
region between the metadata boundary and the unavailable tail: its free-list
blocks are exactly the boundary blocks of the two reservations, which tile
disjoint pieces of `[initM, initR)`. -/
theorem inv_init {b e : Nat} {st : BDState} {m : InitMeta}
    (h : bd_init b e = some (st, m)) : Inv (initM b e) (initR b e) st := by
  obtain ⟨-, -, hns, hlive, hfree, hsplit, -, -⟩ := bd_init_some h
  have hmeet := init_frontier_meet h
  have hEF : ∀ t t', t ≤ initNs b e - 2 → t' ≤ initNs b e - 2 →
      eFr (initM b e) t ≤ fFr (initR b e) t' := by
    intro t t' h1 h2
    calc eFr (initM b e) t ≤ eFr (initM b e) (initNs b e - 2) := eFr_mono _ h1
      _ = fFr (initR b e) (initNs b e - 2) := hmeet
      _ ≤ fFr (initR b e) t' := fFr_anti _ h2
  have hshape : ∀ j (x : Nat × Nat), x ∈ (st.free j).map (fun a => (a, j)) →
      j < initNs b e - 2 ∧ x.2 = j ∧
      ((x.1 = eFr (initM b e) j ∧
          x.1 + BLK_SIZE j = eFr (initM b e) (j + 1)) ∨
        (x.1 = fFr (initR b e) (j + 1) ∧
          x.1 + BLK_SIZE j = fFr (initR b e) j)) := by
    intro j x hx
    rw [List.mem_map] at hx
    obtain ⟨a, ha, rfl⟩ := hx
    rw [hfree j, List.mem_append] at ha
    rcases ha with ha | ha
    · by_cases hc : j < initNs b e - 2 ∧
          markPushCond (initR b e) (initHeap b e) false j
      · rw [if_pos hc] at ha
        obtain ⟨hj2, hcond⟩ := hc
        have hodd := (markPushCond_false (initR b e) (initHeap b e) j).mp hcond
        have hae : a = markPushAddr (initR b e) (initHeap b e) false j :=
          List.mem_singleton.mp ha
        subst hae
        refine ⟨hj2, rfl, Or.inr ?_⟩
        have h1 : fFr (initR b e) (j + 1) = fFr (initR b e) j - BLK_SIZE j := by
          rw [fFr_succ, if_pos hodd]
        have hq : fFr (initR b e) j = blk_index j (initR b e) * BLK_SIZE j := rfl
        have hp1 : 1 ≤ blk_index j (initR b e) := by omega
        have h5 : blk_index j (initR b e) - 1 + 1 = blk_index j (initR b e) := by
          omega
        have h2 : (blk_index j (initR b e) - 1) * BLK_SIZE j + BLK_SIZE j
            = blk_index j (initR b e) * BLK_SIZE j := by
          calc (blk_index j (initR b e) - 1) * BLK_SIZE j + BLK_SIZE j
              = (blk_index j (initR b e) - 1 + 1) * BLK_SIZE j := by ring
            _ = blk_index j (initR b e) * BLK_SIZE j := by rw [h5]
        have hA : markPushAddr (initR b e) (initHeap b e) false j
            = (blk_index j (initR b e) - 1) * BLK_SIZE j := markPushAddr_false _ _ _
        have hBj := BLK_pos j
        constructor
        · simp only
          omega
        · simp only
          omega
      · rw [if_neg hc] at ha
        exact absurd ha (List.not_mem_nil a)
    · by_cases hc : j < initNs b e - 2 ∧ markPushCond 0 (initM b e) true j
      · rw [if_pos hc] at ha
        obtain ⟨hj2, hcond⟩ := hc
        have hodd := (markPushCond_true 0 (initM b e) j).mp hcond
        have hae : a = markPushAddr 0 (initM b e) true j :=
          List.mem_singleton.mp ha
        subst hae
        refine ⟨hj2, rfl, Or.inl ?_⟩
        have h1 : eFr (initM b e) (j + 1) = eFr (initM b e) j + BLK_SIZE j := by
          rw [eFr_succ, if_pos hodd]
        have hq : eFr (initM b e) j = blk_index_next j (initM b e) * BLK_SIZE j :=
          rfl
        have hA : markPushAddr 0 (initM b e) true j
            = blk_index_next j (initM b e) * BLK_SIZE j := markPushAddr_true _ _ _
        constructor
        · simp only
          omega
        · simp only
          omega
      · rw [if_neg hc] at ha
        exact absurd ha (List.not_mem_nil a)
  have hbmem : ∀ x ∈ blocks st, ∃ j, x ∈ (st.free j).map (fun a => (a, j)) := by
    intro x hx
    unfold blocks at hx
    rw [hlive, List.append_nil] at hx
    unfold freeBlocks at hx
    rw [List.mem_flatMap] at hx
    obtain ⟨k, hk, hxk⟩ := hx
    exact ⟨k, hxk⟩
  refine ⟨?_, ?_, ?_, ?_⟩
  · -- pairwise disjointness
    unfold blocks
    rw [hlive, List.append_nil]
    unfold freeBlocks
    rw [hns]
    apply pairwise_flatMap_range
    · intro j hjN
      rw [hfree j]
      by_cases hA : j < initNs b e - 2 ∧
          markPushCond (initR b e) (initHeap b e) false j
      · rw [if_pos hA]
        by_cases hB : j < initNs b e - 2 ∧ markPushCond 0 (initM b e) true j
        · rw [if_pos hB]
          simp only [List.cons_append, List.nil_append, List.map_cons,
            List.map_nil]
          refine List.Pairwise.cons ?_ (List.pairwise_singleton _ _)
          intro y hy
          have hy' : y = (markPushAddr 0 (initM b e) true j, j) := by
            simpa using hy
          subst hy'
          obtain ⟨hj2, hcond⟩ := hA
          obtain ⟨-, hcondB⟩ := hB
          have hoddR := (markPushCond_false (initR b e) (initHeap b e) j).mp hcond
          have hoddL := (markPushCond_true 0 (initM b e) j).mp hcondB
          right
          simp only
          have hAr : markPushAddr (initR b e) (initHeap b e) false j
              = (blk_index j (initR b e) - 1) * BLK_SIZE j :=
            markPushAddr_false _ _ _
          have hAl : markPushAddr 0 (initM b e) true j
              = blk_index_next j (initM b e) * BLK_SIZE j := markPushAddr_true _ _ _
          have hql : eFr (initM b e) j
              = blk_index_next j (initM b e) * BLK_SIZE j := rfl
          have hqr : fFr (initR b e) j
              = blk_index j (initR b e) * BLK_SIZE j := rfl
          have h1 : eFr (initM b e) (j + 1) = eFr (initM b e) j + BLK_SIZE j := by
            rw [eFr_succ, if_pos hoddL]
          have h2 : fFr (initR b e) (j + 1) = fFr (initR b e) j - BLK_SIZE j := by
            rw [fFr_succ, if_pos hoddR]
          have hp1 : 1 ≤ blk_index j (initR b e) := by omega
          have h5 : blk_index j (initR b e) - 1 + 1 = blk_index j (initR b e) := by
            omega
          have h2' : (blk_index j (initR b e) - 1) * BLK_SIZE j + BLK_SIZE j
              = blk_index j (initR b e) * BLK_SIZE j := by
            calc (blk_index j (initR b e) - 1) * BLK_SIZE j + BLK_SIZE j
                = (blk_index j (initR b e) - 1 + 1) * BLK_SIZE j := by ring
              _ = blk_index j (initR b e) * BLK_SIZE j := by rw [h5]
          have hcross := hEF (j + 1) (j + 1) (by omega) (by omega)
          have hBj := BLK_pos j
          omega
        · rw [if_neg hB]
          simp only [List.append_nil, List.map_cons, List.map_nil]
          exact List.pairwise_singleton _ _
      · rw [if_neg hA]
        by_cases hB : j < initNs b e - 2 ∧ markPushCond 0 (initM b e) true j
        · rw [if_pos hB]
          simp only [List.nil_append, List.map_cons, List.map_nil]
          exact List.pairwise_singleton _ _
        · rw [if_neg hB]
          simp only [List.nil_append, List.map_nil]
          exact List.Pairwise.nil
    · intro j j' hjj' hj'N x hx y hy
      obtain ⟨hj2, hxj, hxs⟩ := hshape j x hx
      obtain ⟨hj'2, hyj, hys⟩ := hshape j' y hy
      unfold BlkDisj
      rw [hxj, hyj]
      have hBj := BLK_pos j
      have hBj' := BLK_pos j'
      rcases hxs with ⟨hx1, hx2⟩ | ⟨hx1, hx2⟩ <;>
        rcases hys with ⟨hy1, hy2⟩ | ⟨hy1, hy2⟩
      · left
        have hmono := eFr_mono (initM b e) (show j + 1 ≤ j' by omega)
        omega
      · left
        have hcross := hEF (j + 1) (j' + 1) (by omega) (by omega)
        omega
      · right
        have hcross := hEF (j' + 1) (j + 1) (by omega) (by omega)
        omega
      · right
        have hanti := fFr_anti (initR b e) (show j + 1 ≤ j' by omega)
        omega
  · -- geometry
    intro x hx
    obtain ⟨j, hxj⟩ := hbmem x hx
    obtain ⟨hj2, hx2, hxs⟩ := hshape j x hxj
    rw [hx2, hns]
    have hBj := BLK_pos j
    refine ⟨?_, ?_, ?_, by omega⟩
    · rcases hxs with ⟨hx1, -⟩ | ⟨hx1, -⟩
      · rw [hx1]
        exact (eFr_spec _ _).2.2
      · rw [hx1]
        exact dvd_trans (BLK_dvd (Nat.le_succ j)) (fFr_spec _ _).2.2
    · rcases hxs with ⟨hx1, -⟩ | ⟨hx1, -⟩
      · rw [hx1]
        exact (eFr_spec _ _).1
      · rw [hx1]
        have h1 := (eFr_spec (initM b e) (j + 1)).1
        have h2 := hEF (j + 1) (j + 1) (by omega) (by omega)
        omega
    · rcases hxs with ⟨-, hx2'⟩ | ⟨-, hx2'⟩
      · have h2 := hEF (j + 1) (j + 1) (by omega) (by omega)
        have h3 := (fFr_spec (initR b e) (j + 1)).1
        omega
      · have h3 := (fFr_spec (initR b e) j).1
        omega
  · -- every block's parent split bit is set
    intro x hx
    obtain ⟨j, hxj⟩ := hbmem x hx
    obtain ⟨hj2, hx2, hxs⟩ := hshape j x hxj
    rw [hx2]
    apply (hsplit (j + 1) (blk_index (j + 1) x.1)).mpr
    have hBj := BLK_pos j
    have hBj' := BLK_pos (j + 1)
    have hBs := BLK_succ j
    rcases hxs with ⟨hx1, hxe⟩ | ⟨hx1, hxe⟩
    · -- left boundary block
      have hstep := eFr_succ (initM b e) j
      have hodd : blk_index_next j (initM b e) % 2 = 1 := by
        by_contra hco
        rw [if_neg hco] at hstep
        omega
      rw [if_pos hodd] at hstep
      have hq1 : eFr (initM b e) (j + 1)
          = blk_index_next (j + 1) (initM b e) * BLK_SIZE (j + 1) := rfl
      have hq0 : eFr (initM b e) j
          = blk_index_next j (initM b e) * BLK_SIZE j := rfl
      have h2e : 2 * blk_index_next (j + 1) (initM b e)
          = blk_index_next j (initM b e) + 1 := by
        have hcancel : 2 * blk_index_next (j + 1) (initM b e) * BLK_SIZE j
            = (blk_index_next j (initM b e) + 1) * BLK_SIZE j := by
          calc 2 * blk_index_next (j + 1) (initM b e) * BLK_SIZE j
              = blk_index_next (j + 1) (initM b e) * (2 * BLK_SIZE j) := by ring
            _ = blk_index_next (j + 1) (initM b e) * BLK_SIZE (j + 1) := by
                rw [← hBs]
            _ = eFr (initM b e) (j + 1) := hq1.symm
            _ = eFr (initM b e) j + BLK_SIZE j := hstep
            _ = blk_index_next j (initM b e) * BLK_SIZE j + BLK_SIZE j := by
                rw [hq0]
            _ = (blk_index_next j (initM b e) + 1) * BLK_SIZE j := by ring
        exact Nat.eq_of_mul_eq_mul_right hBj hcancel
      obtain ⟨t, ht⟩ : ∃ t, blk_index_next (j + 1) (initM b e) = t + 1 :=
        ⟨blk_index_next (j + 1) (initM b e) - 1, by omega⟩
      have hej : blk_index_next j (initM b e) = 2 * t + 1 := by omega
      have hx1e : x.1 = t * BLK_SIZE (j + 1) + BLK_SIZE j := by
        rw [hx1, hq0, hej, hBs]
        ring
      have hi : blk_index (j + 1) x.1 = t := by
        unfold blk_index
        rw [hx1e, add_lt_div_eq hBj' (dvd_mul_left _ _)
          (BLK_strict_mono (Nat.lt_succ_self j))]
        exact Nat.mul_div_cancel t hBj'
      exact Or.inl ⟨by omega, by omega, by omega⟩
    · -- right boundary block
      have hstep := fFr_succ (initR b e) j
      have hodd : blk_index j (initR b e) % 2 = 1 := by
        by_contra hco
        rw [if_neg hco] at hstep
        omega
      rw [if_pos hodd] at hstep
      have hq1 : fFr (initR b e) (j + 1)
          = blk_index (j + 1) (initR b e) * BLK_SIZE (j + 1) := rfl
      have hi : blk_index (j + 1) x.1 = blk_index (j + 1) (initR b e) := by
        rw [hx1, hq1]
        unfold blk_index
        rw [Nat.mul_div_cancel _ hBj']
      have hHd : BLK_SIZE (j + 1) ∣ initHeap b e :=
        BLK_dvd (show j + 1 ≤ initNs b e - 1 by omega)
      have hbin : blk_index_next (j + 1) (initHeap b e)
          = initHeap b e / BLK_SIZE (j + 1) := by
        unfold blk_index_next
        rw [if_neg (not_not_intro (mod_eq_zero_of_dvd hHd))]
        omega
      have hHeq : initHeap b e / BLK_SIZE (j + 1) * BLK_SIZE (j + 1)
          = initHeap b e := div_mul_of_dvd hHd
      have hiB : blk_index (j + 1) x.1 * BLK_SIZE (j + 1) < initHeap b e := by
        rw [hi, ← hq1]
        have h2 := (fFr_spec (initR b e) j).1
        have hp1 : 1 ≤ blk_index j (initR b e) := by omega
        have hq0 : fFr (initR b e) j
            = blk_index j (initR b e) * BLK_SIZE j := rfl
        have h6 : 1 * BLK_SIZE j ≤ blk_index j (initR b e) * BLK_SIZE j :=
          Nat.mul_le_mul_right _ hp1
        have hRH : initR b e ≤ initHeap b e := by
          have hUle := initU_le_heap b e
          have hRdef : initR b e = initHeap b e - initU b e := rfl
          omega
        omega
      have hfin : blk_index (j + 1) x.1 < blk_index_next (j + 1) (initHeap b e) := by
        rw [hbin]
        by_contra hco
        push_neg at hco
        have h8 := Nat.mul_le_mul_right (BLK_SIZE (j + 1)) hco
        omega
      exact Or.inr ⟨by omega, by omega, le_of_eq hi.symm, hfin⟩
  · -- no split bit strictly inside a block
    intro x hx j i h1j hjx hlo hhi
    obtain ⟨jx, hxj⟩ := hbmem x hx
    obtain ⟨hj2, hx2, hxs⟩ := hshape jx x hxj
    rw [hx2] at hjx hhi
    have hjN2 : j ≤ initNs b e - 2 := by omega
    have hlox : eFr (initM b e) j ≤ x.1 := by
      rcases hxs with ⟨hx1, -⟩ | ⟨hx1, -⟩
      · rw [hx1]
        exact eFr_mono _ (by omega)
      · rw [hx1]
        have h1 := eFr_mono (initM b e) (show j ≤ jx + 1 by omega)
        have h2 := hEF (jx + 1) (jx + 1) (by omega) (by omega)
        omega
    have hhix : x.1 + BLK_SIZE jx ≤ fFr (initR b e) j := by
      rcases hxs with ⟨-, hx2'⟩ | ⟨-, hx2'⟩
      · have h1 := hEF (jx + 1) (jx + 1) (by omega) (by omega)
        have h2 := fFr_anti (initR b e) (show j ≤ jx + 1 by omega)
        omega
      · have h2 := fFr_anti (initR b e) (show j ≤ jx by omega)
        omega
    apply eq_false_of_ne_true
    intro hset
    have hBj := BLK_pos j
    have h7 : (i + 1) * BLK_SIZE j = i * BLK_SIZE j + BLK_SIZE j := by ring
    rcases (hsplit j i).mp hset with ⟨-, -, hiL⟩ | ⟨-, -, hiR1, -⟩
    · have h1 : (i + 1) * BLK_SIZE j
          ≤ blk_index_next j (initM b e) * BLK_SIZE j :=
        Nat.mul_le_mul_right _ (by omega)
      have hq : eFr (initM b e) j
          = blk_index_next j (initM b e) * BLK_SIZE j := rfl
      omega
    · have h1 : blk_index j (initR b e) * BLK_SIZE j ≤ i * BLK_SIZE j :=
        Nat.mul_le_mul_right _ hiR1
      have hq : fFr (initR b e) j
          = blk_index j (initR b e) * BLK_SIZE j := rfl
      omega

/-- Every state reachable from a completed `bd_init` satisfies the allocator
invariant. -/
theorem inv_reach {b e : Nat} {st : BDState} (h : Reachable b e st) :
    Inv (initM b e) (initR b e) st := by
  obtain ⟨st0, m, hinit, hsteps⟩ := h
  have h0 := inv_init hinit
  induction hsteps with
  | refl => exact h0
  | tail hab hbc ih => exact inv_step ih hbc

/-- On success, `bd_malloc` records the granted block at the head of the
ghost live list, classed at `firstk nbytes`. -/
theorem bd_malloc_live_head {st : BDState} {n p : Nat} {st' : BDState}
    (h : bd_malloc st n = (some p, st')) :
    ∃ l, st'.live = (p, firstk n) :: l := by
  obtain ⟨k, rest, hfind, hfr, hst'⟩ := bd_malloc_some_ex h
  subst hst'
  exact ⟨_, rfl⟩

/-! ### The claims -/

/-- Claim C1: the spec's coalescing rule does not hold of `bd_free`.  After
`bd_init(0, 600)`, `bd_malloc 32` splits the class-2 block at offset 512,
granting `(512, class 1)` and pushing its buddy 544 onto class 1's free list;
freeing 512 then leaves BOTH class-1 buddies on class 1's free list, restores
no class-2 block, leaves the parent's split bit set, and leaves the pair
allocation bit set rather than flipped back — the merge branch never runs
because `bd_free` sets the pair bit with `bit_set` and immediately tests it,
so the "buddy is free" test is always false. -/
theorem claim_C1 :
    (bd_malloc st600 32).1 = some 512 ∧
    (bd_free (bd_malloc st600 32).2 512).free 1 = [512, 544] ∧
    (bd_free (bd_malloc st600 32).2 512).free 2 = [] ∧
    bit_isset ((bd_free (bd_malloc st600 32).2 512).split 2) 8 = true ∧
    bit_isset ((bd_free (bd_malloc st600 32).2 512).alloc 1) 8 = true := by
  decide

/-- Claim C2: allocate-then-free is not the identity on the allocator state.
From the `bd_init(0, 600)` state, `bd_malloc 32` returns 512 and, after
`bd_free 512`, class 2's free list (`[512]` before the round trip) is empty:
the split performed by the allocation is never undone. -/
theorem claim_C2 :
    (bd_malloc st600 32).1 = some 512 ∧
    (bd_free (bd_malloc st600 32).2 512).free 2 ≠ st600.free 2 := by
  decide

/-- Claim C3: accounting invariant at initialization.  Whenever
`bd_init(base, end)` completes, the bytes on all free lists plus the reserved
metadata bytes plus the reserved unavailable-tail bytes equal
`HEAP_SIZE = BLK_SIZE (nsizes - 1)` exactly (a mismatch makes `bd_init`
return `none`, the model of its panic). -/
theorem claim_C3 (b e : Nat) (st : BDState) (m : InitMeta)
    (h : bd_init b e = some (st, m)) :
    freeListBytes st + m.metaBytes + m.unavailBytes = initHeap b e := by
  obtain ⟨hM, hU, -, -, -, -, hInt, hbytes⟩ := bd_init_some h
  rw [hbytes, hM, hU]
  omega

theorem claim_C3_witness :
    freeListBytes st600 + meta600.metaBytes + meta600.unavailBytes
      = initHeap 0 600 :=
  claim_C3 0 600 st600 meta600 rfl

/-- Claim C4 (corrected): size-class recovery on free.  `size(p)` does return
the first class `k` whose parent split bit (class `k+1`) is set for `p`'s
index, scanning from 0 upward; but when NO such `k` exists below `nsizes`,
the loop falls through and the function returns 0 — not `N-1` as the spec
states. -/
theorem claim_C4 (st : BDState) (p : Nat) :
    (∀ k, k < st.nsizes →
      bit_isset (st.split (k + 1)) (blk_index (k + 1) p) = true →
      (∀ j, j < k → bit_isset (st.split (j + 1)) (blk_index (j + 1) p) = false) →
      size st p = k) ∧
    ((∀ j, j < st.nsizes →
        bit_isset (st.split (j + 1)) (blk_index (j + 1) p) = false) →
      size st p = 0) := by
  constructor
  · intro k hk hset hbelow
    exact size_eq_of_hit hk hset hbelow
  · intro hno
    exact size_eq_zero_of_nohit hno

theorem claim_C4_witness :
    size st600 256 = 4 ∧ size st600 1024 = 0 :=
  ⟨(claim_C4 st600 256).1 4 (by decide) (by decide) (by decide),
    (claim_C4 st600 1024).2 (by decide)⟩

/-- Claim C4, counterexample to the spec's fallthrough rule: in the
`bd_init(0, 600)` state no parent split bit is set for offset 1024 at any
class, the code's `size` returns 0, while the rule as the spec words it
(`sizeSpec`) returns `nsizes - 1 = 6`. -/
theorem claim_C4_counterexample :
    size st600 1024 = 0 ∧ sizeSpec st600 1024 = 6 ∧ st600.nsizes - 1 = 6 ∧
    size st600 1024 ≠ sizeSpec st600 1024 := by
  decide

/-- Claim C5: no overlap of live allocations.  In every state reachable from
a completed `bd_init` by `bd_malloc` calls and `bd_free` calls of live
offsets, the byte extents of the live (allocated, unfreed) blocks are
pairwise disjoint. -/
theorem claim_C5 {b e : Nat} {st : BDState} (h : Reachable b e st) :
    List.Pairwise BlkDisj st.live := by
  have hInv := inv_reach h
  have hpw := hInv.1
  unfold blocks at hpw
  exact (List.pairwise_append.mp hpw).2.1

theorem claim_C5_witness :
    List.Pairwise BlkDisj (bd_malloc (bd_malloc st600 32).2 16).2.live :=
  @claim_C5 0 600 (bd_malloc (bd_malloc st600 32).2 16).2
    ⟨st600, meta600, rfl,
      Relation.ReflTransGen.tail
        (Relation.ReflTransGen.single (Step.malloc 32 st600))
        (Step.malloc 16 (bd_malloc st600 32).2)⟩

/-- Claim C6: exact-fit class selection.  For a request `n` with
`BLK_SIZE (k-1) < n ≤ BLK_SIZE k`, the loop of `firstk` picks exactly `k`,
and a successful `bd_malloc n` grants its block at class `k` (recorded at
the head of the ghost live list). -/
theorem claim_C6 (st : BDState) (n k p : Nat) (st' : BDState)
    (h1 : BLK_SIZE (k - 1) < n) (h2 : n ≤ BLK_SIZE k)
    (hm : bd_malloc st n = (some p, st')) :
    firstk n = k ∧ ∃ l, st'.live = (p, k) :: l := by
  have hfk : firstk n = k := by
    have hle : firstk n ≤ k := firstk_le_of_le h2
    rcases Nat.eq_or_lt_of_le hle with he | hlt
    · exact he
    · exfalso
      have hfs := (firstk_spec n).1
      have hmono : BLK_SIZE (firstk n) ≤ BLK_SIZE (k - 1) := BLK_mono (by omega)
      omega
  refine ⟨hfk, ?_⟩
  have hl := bd_malloc_live_head hm
  rw [hfk] at hl
  exact hl

theorem claim_C6_witness :
    firstk 32 = 1 ∧ ∃ l, (bd_malloc st600 32).2.live = (512, 1) :: l :=
  claim_C6 st600 32 1 512 (bd_malloc st600 32).2 (by decide) (by decide) rfl

/-- Claim C7: out-of-memory behavior.  `bd_malloc nbytes` returns `none`
exactly when every class from `firstk nbytes` up to `nsizes - 1` has an empty
free list, and in that case the state is returned unchanged: no bitmap and
no free list is touched. -/
theorem claim_C7 (st : BDState) (n : Nat) :
    ((bd_malloc st n).1 = none ↔
      ∀ k, firstk n ≤ k → k < st.nsizes → st.free k = []) ∧
    ((bd_malloc st n).1 = none → (bd_malloc st n).2 = st) := by
  constructor
  · rw [bd_malloc_none_iff, findk_none_iff]
  · exact bd_malloc_none_state st n

theorem claim_C7_witness :
    ((bd_malloc st600 2000).1 = none ↔
      ∀ k, firstk 2000 ≤ k → k < st600.nsizes → st600.free k = []) ∧
    ((bd_malloc st600 2000).1 = none → (bd_malloc st600 2000).2 = st600) :=
  claim_C7 st600 2000

/-- Claim C8: boundary non-overlap.  After a completed `bd_init`, the
metadata range `[0, initM)` and the unavailable tail `[initR, HEAP_SIZE)` do
not overlap (`initM ≤ initR`), and every block granted by `bd_malloc` in any
reachable state lies entirely inside `[initM, initR)` — inside neither
reserved range. -/
theorem claim_C8 {b e : Nat} {st st' : BDState} {n p : Nat}
    (hr : Reachable b e st) (hm : bd_malloc st n = (some p, st')) :
    initM b e ≤ initR b e ∧
    initM b e ≤ p ∧ p + BLK_SIZE (firstk n) ≤ initR b e := by
  obtain ⟨st0, m0, hinit, hsteps⟩ := hr
  have hMR := initM_le_initR hinit
  have hInv : Inv (initM b e) (initR b e) st :=
    inv_reach ⟨st0, m0, hinit, hsteps⟩
  have hInv' : Inv (initM b e) (initR b e) st' := by
    have h2 := inv_malloc (initM b e) (initR b e) st n hInv
    rw [hm] at h2
    exact h2
  obtain ⟨l, hl⟩ := bd_malloc_live_head hm
  have hmem : ((p, firstk n) : Nat × Nat) ∈ blocks st' :=
    List.mem_append.mpr (Or.inr (by rw [hl]; exact List.mem_cons_self _ _))
  have hg := hInv'.2.1 _ hmem
  exact ⟨hMR, hg.2.1, hg.2.2.1⟩

theorem claim_C8_witness :
    initM 0 600 ≤ initR 0 600 ∧ initM 0 600 ≤ 512 ∧
    512 + BLK_SIZE (firstk 32) ≤ initR 0 600 :=
  @claim_C8 0 600 st600 (bd_malloc st600 32).2 32 512
    ⟨st600, meta600, rfl, Relation.ReflTransGen.refl⟩ rfl

/-- Claim C9: range-marking alignment check.  `bd_mark(start, stop, is_left)`
panics (returns `none`) if and only if `start` or `stop` is not aligned to
`LEAF_SIZE`; on aligned inputs it never signals the alignment error. -/
theorem claim_C9 (st : BDState) (a b : Nat) (il : Bool) :
    bd_mark st a b il = none ↔ ¬(a % LEAF_SIZE = 0 ∧ b % LEAF_SIZE = 0) :=
  bd_mark_none_iff st a b il

/-- Claim C10: minimum grant size and zero-size requests.  For every request
of at most `LEAF_SIZE` bytes — zero included — `firstk` selects class 0, so a
successful `bd_malloc` grants a full `LEAF_SIZE`-byte block; the granted
class is never smaller than a leaf. -/
theorem claim_C10 (st : BDState) (n p : Nat) (st' : BDState)
    (hn : n ≤ LEAF_SIZE) (hm : bd_malloc st n = (some p, st')) :
    firstk n = 0 ∧ LEAF_SIZE ≤ BLK_SIZE (firstk n) ∧
    ∃ l, st'.live = (p, 0) :: l := by
  have h0 : firstk n = 0 := by
    have hle : firstk n ≤ 0 := firstk_le_of_le (by rw [BLK_zero]; exact hn)
    omega
  refine ⟨h0, by rw [h0, BLK_zero], ?_⟩
  have hl := bd_malloc_live_head hm
  rw [h0] at hl
  exact hl

theorem claim_C10_witness :
    firstk 0 = 0 ∧ LEAF_SIZE ≤ BLK_SIZE (firstk 0) ∧
    ∃ l, (bd_malloc st600 0).2.live = (576, 0) :: l :=
  claim_C10 st600 0 576 (bd_malloc st600 0).2 (by decide) rfl

end Buddy
